import Mathlib

/-!
Verification of `scripts/lib/publishing.ts`: a shallow embedding of the
publishing helpers (topological sort of packages, the retry engine, the
per-package publish cycle and the recursive copy utility) together with
proofs of the specified properties.
-/

set_option autoImplicit false

namespace Publishing

/-! ## Data model

`PackageDetails` mirrors the TypeScript type of the same name.  A
`PackageRegistry` (`Record<string, PackageDetails>`) is embedded as an
association list of key/value pairs in object-key iteration order.
-/

structure PackageDetails where
  name : String
  dir : String
  localDeps : List String
  version : String
deriving DecidableEq, Repr

deriving instance DecidableEq for Except

/-- Key lookup in the registry (`packages[packageName]`), first match wins. -/
def lookupPkg : List (String × PackageDetails) → String → Option PackageDetails
  | [], _ => none
  | (k, v) :: rest, n => if k = n then some v else lookupPkg rest n

/-- The mutable state of `topologicalSortPackages`: the output list `sorted`
and the visited set (embedded as the list of names that have been added). -/
structure SortState where
  sorted : List PackageDetails
  visited : List String
deriving DecidableEq, Repr

/-- How a run of the sorter can fail: either the `Could not find package`
exception (carrying the missing name and the `path` argument at the throw
site) or exhaustion of the fuel that makes the embedded recursion total. -/
inductive TopoErr where
  | missing (name : String) (path : List String)
  | fuel
deriving DecidableEq, Repr

/-- The message of the exception thrown by `visit`, exactly as the source
builds it: `Could not find package ${packageName}. path: ${path.join(' -> ')}`. -/
def topoErrMessage (name : String) (path : List String) : String :=
  "Could not find package " ++ name ++ ". path: " ++ String.intercalate " -> " path

/-- The recursive `visit` of `topologicalSortPackages`, processing a worklist
of names at one recursion level.  Each `name` in `names` is visited with path
`path ++ [name]` (the source calls `visit(dep, [...path, dep])`, and the
top level calls `visit(packageName, [packageName])`).  A visited name returns
immediately; otherwise the name is added to the visited set, its package is
looked up (throwing if absent), its `localDeps` are visited recursively and
the package is appended to `sorted`.  `fuel` makes the embedded recursion
total; one unit is consumed per worklist step, and `sortFuel` below is proved
to be always sufficient. -/
def visitMany (pkgs : List (String × PackageDetails)) :
    Nat → List String → List String → SortState → Except TopoErr SortState
  | _, [], _, st => .ok st
  | 0, _ :: _, _, _ => .error .fuel
  | fuel + 1, name :: rest, path, st =>
    let r : Except TopoErr SortState :=
      if name ∈ st.visited then .ok st
      else
        match lookupPkg pkgs name with
        | none => .error (.missing name (path ++ [name]))
        | some pd =>
          match visitMany pkgs fuel pd.localDeps (path ++ [name])
              ⟨st.sorted, name :: st.visited⟩ with
          | .ok st2 => .ok ⟨st2.sorted ++ [pd], st2.visited⟩
          | .error e => .error e
    match r with
    | .ok st' => visitMany pkgs fuel rest path st'
    | .error e => .error e

/-- Fuel that dominates the total number of worklist steps of the traversal:
one step per registry key plus one per `localDeps` entry of each package. -/
def sortFuel (pkgs : List (String × PackageDetails)) : Nat :=
  (pkgs.map (fun kv => kv.2.localDeps.length + 1)).sum + pkgs.length + 1

/-- `topologicalSortPackages`: visit every registry key in order, starting
from an empty state.  `sortFuel` is never exhausted (proved below), so the
fuel is invisible in the behaviour of the function. -/
def topologicalSortPackages (pkgs : List (String × PackageDetails)) :
    Except TopoErr (List PackageDetails) :=
  match visitMany pkgs (sortFuel pkgs) (pkgs.map Prod.fst) [] ⟨[], []⟩ with
  | .ok st => .ok st.sorted
  | .error e => .error e

/-- The direct-dependency relation on names, decidably: `b` is a direct
`localDeps` entry of the package registered under `a`. -/
def depB (pkgs : List (String × PackageDetails)) (a b : String) : Bool :=
  match lookupPkg pkgs a with
  | some pd => b ∈ pd.localDeps
  | none => false

/-- The direct-dependency relation as a proposition. -/
def depName (pkgs : List (String × PackageDetails)) (a b : String) : Prop :=
  depB pkgs a b = true

/-- Every `localDeps` name of every registered package resolves in the
registry. -/
def depsClosed (pkgs : List (String × PackageDetails)) : Prop :=
  ∀ k pd, lookupPkg pkgs k = some pd → ∀ d, d ∈ pd.localDeps → (lookupPkg pkgs d).isSome

/-- The registry maps each name to a package bearing that name (this is how
`getAllPackageDetails` builds it: `[result.name, result]`). -/
def keyConsistent (pkgs : List (String × PackageDetails)) : Prop :=
  ∀ kv, kv ∈ pkgs → (kv.2 : PackageDetails).name = kv.1

/-- The dependency relation has no cycles. -/
def acyclicDeps (pkgs : List (String × PackageDetails)) : Prop :=
  ∀ n, ¬ Relation.TransGen (depName pkgs) n n

/-- The names of the packages of a list, in order. -/
def namesOf (l : List PackageDetails) : List String := l.map PackageDetails.name

/-- The set of registry keys. -/
def keysF (pkgs : List (String × PackageDetails)) : Finset String :=
  (pkgs.map Prod.fst).toFinset

/-- Worklist-step cost of one registry key: one step for the key itself plus
one per `localDeps` entry of its package. -/
def weight (pkgs : List (String × PackageDetails)) (k : String) : Nat :=
  1 + ((lookupPkg pkgs k).map (fun pd => pd.localDeps.length)).getD 0

/-- A list of packages in which every package appears strictly after all of
its direct `localDeps`. -/
def Good (l : List PackageDetails) : Prop :=
  ∀ i, ∀ hi : i < l.length, ∀ d ∈ (l.get ⟨i, hi⟩).localDeps,
    ∃ j, ∃ hj : j < l.length, j < i ∧ (l.get ⟨j, hj⟩).name = d

theorem lookupPkg_some_mem {pkgs : List (String × PackageDetails)} {k : String}
    {v : PackageDetails} (h : lookupPkg pkgs k = some v) : (k, v) ∈ pkgs := by
  induction pkgs with
  | nil => simp [lookupPkg] at h
  | cons kv rest ih =>
    obtain ⟨k', v'⟩ := kv
    by_cases hk : k' = k
    · subst hk
      simp [lookupPkg] at h
      simp [h]
    · simp only [lookupPkg, if_neg hk] at h
      exact List.mem_cons_of_mem _ (ih h)

theorem lookupPkg_some_key_mem {pkgs : List (String × PackageDetails)} {k : String}
    {v : PackageDetails} (h : lookupPkg pkgs k = some v) : k ∈ pkgs.map Prod.fst := by
  have := lookupPkg_some_mem h
  exact List.mem_map.2 ⟨(k, v), this, rfl⟩

theorem lookupPkg_name_eq {pkgs : List (String × PackageDetails)} {k : String}
    {v : PackageDetails} (hKC : keyConsistent pkgs) (h : lookupPkg pkgs k = some v) :
    v.name = k :=
  hKC (k, v) (lookupPkg_some_mem h)

theorem visitMany_nil (pkgs : List (String × PackageDetails)) (fuel : Nat)
    (path : List String) (st : SortState) :
    visitMany pkgs fuel [] path st = .ok st := by
  cases fuel <;> rfl

/-- Shape of a successful run of `visitMany`: the visited set only grows, the
output list is only appended to, every worklist name ends up visited, and
every newly visited name was looked up successfully with all of its
`localDeps` visited. -/
theorem visitMany_ok_shape (pkgs : List (String × PackageDetails)) :
    ∀ fuel names path st st',
      visitMany pkgs fuel names path st = .ok st' →
      (∀ v ∈ st.visited, v ∈ st'.visited) ∧
      (∃ Δ, st'.sorted = st.sorted ++ Δ) ∧
      (∀ n ∈ names, n ∈ st'.visited) ∧
      (∀ v, v ∈ st'.visited → v ∉ st.visited →
        ∃ pd, lookupPkg pkgs v = some pd ∧ ∀ d ∈ pd.localDeps, d ∈ st'.visited) := by
  intro fuel
  induction fuel with
  | zero =>
    intro names path st st' h
    cases names with
    | nil =>
      rw [visitMany_nil] at h
      cases h
      exact ⟨fun v hv => hv, ⟨[], by simp⟩, by simp, fun v hv hv' => absurd hv hv'⟩
    | cons name rest => simp [visitMany] at h
  | succ fuel ih =>
    intro names path st st' h
    cases names with
    | nil =>
      rw [visitMany_nil] at h
      cases h
      exact ⟨fun v hv => hv, ⟨[], by simp⟩, by simp, fun v hv hv' => absurd hv hv'⟩
    | cons name rest =>
      rw [visitMany] at h
      by_cases hv : name ∈ st.visited
      · rw [if_pos hv] at h
        obtain ⟨m1, m2, m3, m4⟩ := ih rest path st st' h
        refine ⟨m1, m2, ?_, m4⟩
        intro n hn
        rcases List.mem_cons.1 hn with hn | hn
        · exact hn ▸ m1 name hv
        · exact m3 n hn
      · rw [if_neg hv] at h
        cases hl : lookupPkg pkgs name with
        | none => rw [hl] at h; cases h
        | some pd =>
          rw [hl] at h
          dsimp only at h
          cases hdep : visitMany pkgs fuel pd.localDeps (path ++ [name])
              ⟨st.sorted, name :: st.visited⟩ with
          | error e => rw [hdep] at h; cases h
          | ok st2 =>
            rw [hdep] at h
            dsimp only at h
            obtain ⟨d1, ⟨Δ₁, d2⟩, d3, d4⟩ := ih _ _ _ _ hdep
            obtain ⟨r1, ⟨Δ₂, r2⟩, r3, r4⟩ := ih _ _ _ _ h
            have hname_st2 : name ∈ st2.visited := d1 name (List.mem_cons_self _ _)
            have hmono : ∀ v ∈ st.visited, v ∈ st'.visited := fun v hv' =>
              r1 v (d1 v (List.mem_cons_of_mem _ hv'))
            refine ⟨hmono, ⟨Δ₁ ++ [pd] ++ Δ₂, by simp [r2, d2]⟩, ?_, ?_⟩
            · intro n hn
              rcases List.mem_cons.1 hn with hn | hn
              · exact hn ▸ r1 name hname_st2
              · exact r3 n hn
            · intro v hvf hv0
              by_cases hv2 : v ∈ st2.visited
              · by_cases hv1 : v ∈ (name :: st.visited : List String)
                · rcases List.mem_cons.1 hv1 with hveq | hvmem
                  · subst hveq
                    exact ⟨pd, hl, fun d hd => r1 d (d3 d hd)⟩
                  · exact absurd hvmem hv0
                · obtain ⟨pd', hpd', hdeps'⟩ := d4 v hv2 hv1
                  exact ⟨pd', hpd', fun d hd => r1 d (hdeps' d hd)⟩
              · obtain ⟨pd', hpd', hdeps'⟩ := r4 v hvf hv2
                exact ⟨pd', hpd', hdeps'⟩

theorem sum_weight_le (pkgs : List (String × PackageDetails)) :
    ∑ k in keysF pkgs, weight pkgs k
      ≤ (pkgs.map (fun kv => kv.2.localDeps.length + 1)).sum := by
  induction pkgs with
  | nil => simp [keysF]
  | cons kv rest ih =>
    obtain ⟨k0, v0⟩ := kv
    have hw : ∀ k, k ≠ k0 → weight ((k0, v0) :: rest) k = weight rest k := by
      intro k hk
      have hlk : lookupPkg ((k0, v0) :: rest) k = lookupPkg rest k := by
        simp only [lookupPkg]
        rw [if_neg (fun h : k0 = k => hk h.symm)]
      simp [weight, hlk]
    have hw0 : weight ((k0, v0) :: rest) k0 = 1 + v0.localDeps.length := by
      simp [weight, lookupPkg]
    have hcons : keysF ((k0, v0) :: rest) = insert k0 (keysF rest) := by
      simp only [keysF, List.map_cons, List.toFinset_cons]
    by_cases hk0 : k0 ∈ keysF rest
    · have hins : keysF ((k0, v0) :: rest) = keysF rest := by
        rw [hcons, Finset.insert_eq_self.2 hk0]
      have h1 : ∑ k in (keysF rest).erase k0, weight ((k0, v0) :: rest) k
            + weight ((k0, v0) :: rest) k0
          = ∑ k in keysF rest, weight ((k0, v0) :: rest) k :=
        Finset.sum_erase_add _ _ hk0
      have h2 : ∑ k in (keysF rest).erase k0, weight ((k0, v0) :: rest) k
          = ∑ k in (keysF rest).erase k0, weight rest k :=
        Finset.sum_congr rfl (fun k hk => hw k (Finset.ne_of_mem_erase hk))
      have h3 : ∑ k in (keysF rest).erase k0, weight rest k
          ≤ ∑ k in keysF rest, weight rest k :=
        Finset.sum_le_sum_of_subset (Finset.erase_subset _ _)
      rw [hins]
      simp only [List.map_cons, List.sum_cons]
      omega
    · have h2 : ∑ k in keysF rest, weight ((k0, v0) :: rest) k
          = ∑ k in keysF rest, weight rest k :=
        Finset.sum_congr rfl (fun k hk => hw k (fun he => hk0 (he ▸ hk)))
      rw [hcons, Finset.sum_insert hk0]
      simp only [List.map_cons, List.sum_cons]
      omega

/-- With fuel at least the potential (worklist length plus total weight of
the unvisited keys), `visitMany` never exhausts its fuel. -/
theorem visitMany_ne_fuel (pkgs : List (String × PackageDetails)) :
    ∀ fuel names path st,
      names.length + ∑ k in keysF pkgs \ st.visited.toFinset, weight pkgs k ≤ fuel →
      visitMany pkgs fuel names path st ≠ .error .fuel := by
  intro fuel
  induction fuel with
  | zero =>
    intro names path st hΦ
    cases names with
    | nil => rw [visitMany_nil]; simp
    | cons n rest => simp [List.length_cons] at hΦ
  | succ fuel ih =>
    intro names path st hΦ
    cases names with
    | nil => rw [visitMany_nil]; simp
    | cons name rest =>
      rw [visitMany]
      by_cases hv : name ∈ st.visited
      · rw [if_pos hv]
        apply ih rest path st
        simp only [List.length_cons] at hΦ
        omega
      · rw [if_neg hv]
        cases hl : lookupPkg pkgs name with
        | none => simp
        | some pd =>
          dsimp only
          have hmem : name ∈ keysF pkgs \ st.visited.toFinset :=
            Finset.mem_sdiff.2 ⟨List.mem_toFinset.2 (lookupPkg_some_key_mem hl),
              fun hc => hv (List.mem_toFinset.1 hc)⟩
          have hwname : weight pkgs name = 1 + pd.localDeps.length := by
            simp [weight, hl]
          have hsd : keysF pkgs \ (name :: st.visited).toFinset
              = (keysF pkgs \ st.visited.toFinset).erase name := by
            rw [List.toFinset_cons, Finset.sdiff_insert]
          have hsum_erase : ∑ k in (keysF pkgs \ st.visited.toFinset).erase name,
                weight pkgs k + weight pkgs name
              = ∑ k in keysF pkgs \ st.visited.toFinset, weight pkgs k :=
            Finset.sum_erase_add _ _ hmem
          simp only [List.length_cons] at hΦ
          cases hdep : visitMany pkgs fuel pd.localDeps (path ++ [name])
              ⟨st.sorted, name :: st.visited⟩ with
          | error e =>
            cases e with
            | fuel =>
              exact absurd hdep (ih _ _ _ (by rw [hsd]; omega))
            | missing m q => simp
          | ok st2 =>
            dsimp only
            apply ih rest path ⟨st2.sorted ++ [pd], st2.visited⟩
            dsimp only
            have hmono := (visitMany_ok_shape pkgs fuel _ _ _ _ hdep).1
            have hsub : keysF pkgs \ st2.visited.toFinset
                ⊆ (keysF pkgs \ st.visited.toFinset).erase name := by
              intro x hx
              obtain ⟨hx1, hx2⟩ := Finset.mem_sdiff.1 hx
              refine Finset.mem_erase.2 ⟨?_, Finset.mem_sdiff.2 ⟨hx1, ?_⟩⟩
              · rintro rfl
                exact hx2 (List.mem_toFinset.2 (hmono x (List.mem_cons_self _ _)))
              · intro hxv
                exact hx2 (List.mem_toFinset.2
                  (hmono x (List.mem_cons_of_mem _ (List.mem_toFinset.1 hxv))))
            have hle := Finset.sum_le_sum_of_subset (f := weight pkgs) hsub
            omega

/-- If every name of the worklist resolves and the registry is closed under
`localDeps`, `visitMany` never throws the missing-package error. -/
theorem visitMany_no_missing (pkgs : List (String × PackageDetails))
    (hcl : depsClosed pkgs) :
    ∀ fuel names path st m q,
      (∀ n ∈ names, (lookupPkg pkgs n).isSome) →
      visitMany pkgs fuel names path st ≠ .error (.missing m q) := by
  intro fuel
  induction fuel with
  | zero =>
    intro names path st m q hres
    cases names with
    | nil => rw [visitMany_nil]; simp
    | cons n rest => simp [visitMany]
  | succ fuel ih =>
    intro names path st m q hres
    cases names with
    | nil => rw [visitMany_nil]; simp
    | cons name rest =>
      rw [visitMany]
      by_cases hv : name ∈ st.visited
      · rw [if_pos hv]
        exact ih rest path st m q (fun n hn => hres n (List.mem_cons_of_mem _ hn))
      · rw [if_neg hv]
        cases hl : lookupPkg pkgs name with
        | none =>
          have := hres name (List.mem_cons_self _ _)
          rw [hl] at this
          simp at this
        | some pd =>
          dsimp only
          cases hdep : visitMany pkgs fuel pd.localDeps (path ++ [name])
              ⟨st.sorted, name :: st.visited⟩ with
          | error e =>
            cases e with
            | fuel => simp
            | missing m' q' =>
              exact absurd hdep (ih _ _ _ m' q' (fun d hd => hcl name pd hl d hd))
          | ok st2 =>
            dsimp only
            exact ih rest path ⟨st2.sorted ++ [pd], st2.visited⟩ m q
              (fun n hn => hres n (List.mem_cons_of_mem _ hn))

theorem mem_keys_lookup_isSome {pkgs : List (String × PackageDetails)} {k : String}
    (h : k ∈ pkgs.map Prod.fst) : (lookupPkg pkgs k).isSome := by
  induction pkgs with
  | nil => simp at h
  | cons kv rest ih =>
    obtain ⟨k0, v0⟩ := kv
    by_cases hk : k0 = k
    · simp [lookupPkg, hk]
    · simp only [List.map_cons, List.mem_cons] at h
      rcases h with h | h

      · exact absurd h.symm hk
      · simp only [lookupPkg, if_neg hk]
        exact ih h

/-- On a registry closed under `localDeps`, the sort always returns a result
(no fuel exhaustion, no missing-package error). -/
theorem visitMany_top_ok (pkgs : List (String × PackageDetails))
    (hcl : depsClosed pkgs) :
    ∃ st, visitMany pkgs (sortFuel pkgs) (pkgs.map Prod.fst) [] ⟨[], []⟩ = .ok st := by
  cases hres : visitMany pkgs (sortFuel pkgs) (pkgs.map Prod.fst) [] ⟨[], []⟩ with
  | ok st => exact ⟨st, rfl⟩
  | error e =>
    cases e with
    | fuel =>
      refine absurd hres (visitMany_ne_fuel pkgs _ _ _ _ ?_)
      have h1 := sum_weight_le pkgs
      have h2 : (⟨[], []⟩ : SortState).visited.toFinset = ∅ := rfl
      rw [h2, Finset.sdiff_empty, List.length_map]
      simp only [sortFuel]
      omega
    | missing m q =>
      exact absurd hres (visitMany_no_missing pkgs hcl _ _ _ _ m q
        (fun n hn => mem_keys_lookup_isSome hn))

theorem depName_intro {pkgs : List (String × PackageDetails)} {a b : String}
    {pd : PackageDetails} (hl : lookupPkg pkgs a = some pd) (hb : b ∈ pd.localDeps) :
    depName pkgs a b := by
  simp [depName, depB, hl, hb]

theorem depName_elim {pkgs : List (String × PackageDetails)} {a b : String}
    (h : depName pkgs a b) :
    ∃ pd, lookupPkg pkgs a = some pd ∧ b ∈ pd.localDeps := by
  unfold depName depB at h
  cases hl : lookupPkg pkgs a with
  | none => rw [hl] at h; simp at h
  | some pd =>
    rw [hl] at h
    exact ⟨pd, rfl, by simpa using h⟩

theorem good_append {l : List PackageDetails} {pd : PackageDetails}
    (hl : Good l) (hdeps : ∀ d ∈ pd.localDeps, d ∈ namesOf l) : Good (l ++ [pd]) := by
  intro i hi d hd
  rcases Nat.lt_or_ge i l.length with hil | hil
  · have hg : (l ++ [pd]).get ⟨i, hi⟩ = l.get ⟨i, hil⟩ := by
      simp [List.get_eq_getElem, List.getElem_append_left hil]
    rw [hg] at hd
    obtain ⟨j, hj, hji, hname⟩ := hl i hil d hd
    refine ⟨j, by simp; omega, hji, ?_⟩
    simp only [List.get_eq_getElem, List.getElem_append_left hj] at hname ⊢
    exact hname
  · have hlen : (l ++ [pd]).length = l.length + 1 := by simp
    have hieq : i = l.length := by omega
    have hg : (l ++ [pd]).get ⟨i, hi⟩ = pd := by
      subst hieq
      simp [List.get_eq_getElem]
    rw [hg] at hd
    obtain ⟨p, hp, hpname⟩ := List.mem_map.1 (hdeps d hd)
    obtain ⟨⟨j, hj⟩, hgp⟩ := List.mem_iff_get.1 hp
    refine ⟨j, by simp; omega, by omega, ?_⟩
    simp only [List.get_eq_getElem, List.getElem_append_left hj]
    rw [List.get_eq_getElem] at hgp
    rw [hgp]
    exact hpname

/-- The central invariant of the depth-first traversal: on a key-consistent
registry with an acyclic dependency relation, a successful `visitMany` run
keeps the output list `Good` (each package strictly after its direct
`localDeps`), keeps every output package the image of its own registry key,
puts every worklist name into the output, and never creates a "grey" name
(visited but not yet output). -/
theorem visitMany_good (pkgs : List (String × PackageDetails))
    (hKC : keyConsistent pkgs) (hacyc : acyclicDeps pkgs) :
    ∀ fuel names path st st',
      visitMany pkgs fuel names path st = .ok st' →
      Good st.sorted →
      (∀ p ∈ st.sorted, lookupPkg pkgs p.name = some p) →
      (∀ p ∈ st.sorted, p.name ∈ st.visited) →
      (∀ g ∈ st.visited, g ∉ namesOf st.sorted →
        ∀ n ∈ names, Relation.TransGen (depName pkgs) g n) →
      Good st'.sorted ∧
      (∀ p ∈ st'.sorted, lookupPkg pkgs p.name = some p) ∧
      (∀ p ∈ st'.sorted, p.name ∈ st'.visited) ∧
      (∀ n ∈ names, n ∈ namesOf st'.sorted) ∧
      (∀ g, g ∈ st'.visited → g ∉ namesOf st'.sorted →
        g ∈ st.visited ∧ g ∉ namesOf st.sorted) := by
  intro fuel
  induction fuel with
  | zero =>
    intro names path st st' h hGood hlk hincl hgray
    cases names with
    | nil =>
      rw [visitMany_nil] at h
      cases h
      exact ⟨hGood, hlk, hincl, by simp, fun g hg hgs => ⟨hg, hgs⟩⟩
    | cons name rest => simp [visitMany] at h
  | succ fuel ih =>
    intro names path st st' h hGood hlk hincl hgray
    cases names with
    | nil =>
      rw [visitMany_nil] at h
      cases h
      exact ⟨hGood, hlk, hincl, by simp, fun g hg hgs => ⟨hg, hgs⟩⟩
    | cons name rest =>
      rw [visitMany] at h
      by_cases hv : name ∈ st.visited
      · rw [if_pos hv] at h
        have hnames : name ∈ namesOf st.sorted := by
          by_contra hns
          exact hacyc name (hgray name hv hns name (List.mem_cons_self _ _))
        obtain ⟨r1, r2, r3, r4, r5⟩ := ih rest path st st' h hGood hlk hincl
          (fun g hg hgs n hn => hgray g hg hgs n (List.mem_cons_of_mem _ hn))
        obtain ⟨_, ⟨Δ, hΔ⟩, _, _⟩ := visitMany_ok_shape pkgs fuel rest path st st' h
        refine ⟨r1, r2, r3, ?_, r5⟩
        intro n hn
        rcases List.mem_cons.1 hn with hn | hn
        · subst hn
          rw [hΔ]
          simp only [namesOf, List.map_append] at *
          exact List.mem_append_left _ hnames
        · exact r4 n hn
      · rw [if_neg hv] at h
        cases hl : lookupPkg pkgs name with
        | none => rw [hl] at h; cases h
        | some pd =>
          rw [hl] at h
          dsimp only at h
          cases hdep : visitMany pkgs fuel pd.localDeps (path ++ [name])
              ⟨st.sorted, name :: st.visited⟩ with
          | error e => rw [hdep] at h; cases h
          | ok st2 =>
            rw [hdep] at h
            dsimp only at h
            have hpdname : pd.name = name := lookupPkg_name_eq hKC hl
            have hnvs : name ∉ namesOf st.sorted := by
              intro hns
              obtain ⟨p, hp, hpn⟩ := List.mem_map.1 hns
              exact hv (hpn ▸ hincl p hp)
            obtain ⟨d1, d2, d3, d4, d5⟩ := ih _ _ _ _ hdep hGood hlk
              (fun p hp => List.mem_cons_of_mem _ (hincl p hp))
              (by
                intro g hg hgs n hn
                rcases List.mem_cons.1 hg with hge | hgm
                · subst hge
                  exact Relation.TransGen.single (depName_intro hl hn)
                · exact Relation.TransGen.tail
                    (hgray g hgm hgs name (List.mem_cons_self _ _))
                    (depName_intro hl hn))
            have hdepmono := (visitMany_ok_shape pkgs fuel _ _ _ _ hdep).1
            have hnamest2 : name ∈ st2.visited :=
              hdepmono name (List.mem_cons_self _ _)
            have hGood3 : Good (st2.sorted ++ [pd]) := good_append d1 (fun d hd => d4 d hd)
            have hlk3 : ∀ p ∈ st2.sorted ++ [pd], lookupPkg pkgs p.name = some p := by
              intro p hp
              rcases List.mem_append.1 hp with hp | hp
              · exact d2 p hp
              · rw [List.mem_singleton.1 hp, hpdname, hl]
            have hincl3 : ∀ p ∈ st2.sorted ++ [pd], p.name ∈ st2.visited := by
              intro p hp
              rcases List.mem_append.1 hp with hp | hp
              · exact d3 p hp
              · rw [List.mem_singleton.1 hp, hpdname]
                exact hnamest2
            have hgray3 : ∀ g, g ∈ st2.visited → g ∉ namesOf (st2.sorted ++ [pd]) →
                g ∈ st.visited ∧ g ∉ namesOf st.sorted := by
              intro g hg hgs
              simp only [namesOf, List.map_append, List.map_cons, List.map_nil,
                List.mem_append, List.mem_singleton, not_or] at hgs
              obtain ⟨hgs2, hgne⟩ := hgs
              rw [hpdname] at hgne
              obtain ⟨hg1, hg1s⟩ := d5 g hg (by simpa [namesOf] using hgs2)
              rcases List.mem_cons.1 hg1 with hge | hgm
              · exact absurd hge hgne
              · exact ⟨hgm, hg1s⟩
            obtain ⟨r1, r2, r3, r4, r5⟩ := ih rest path ⟨st2.sorted ++ [pd], st2.visited⟩
              st' h hGood3 hlk3 hincl3
              (by
                intro g hg hgs n hn
                obtain ⟨hg0, hg0s⟩ := hgray3 g hg hgs
                exact hgray g hg0 hg0s n (List.mem_cons_of_mem _ hn))
            obtain ⟨_, ⟨Δ, hΔ⟩, _, _⟩ := visitMany_ok_shape pkgs fuel rest path _ st' h
            refine ⟨r1, r2, r3, ?_, ?_⟩
            · intro n hn
              rcases List.mem_cons.1 hn with hn | hn
              · subst hn
                rw [hΔ]
                have hnm : n ∈ namesOf (st2.sorted ++ [pd]) := by
                  simp [namesOf, hpdname]
                simp only [namesOf, List.map_append] at hnm ⊢
                exact List.mem_append_left _ hnm
              · exact r4 n hn
            · intro g hg hgs
              obtain ⟨hg3, hg3s⟩ := r5 g hg hgs
              exact hgray3 g hg3 hg3s

/-- Transitive closure of `good_append`: in a `Good` list whose members are
the images of their registry keys, every transitive dependency of the entry
at index `i` appears at a strictly smaller index. -/
theorem good_trans {pkgs : List (String × PackageDetails)} {l : List PackageDetails}
    (hg : Good l) (hlk : ∀ p ∈ l, lookupPkg pkgs p.name = some p) :
    ∀ i, ∀ hi : i < l.length, ∀ n,
      Relation.TransGen (depName pkgs) ((l.get ⟨i, hi⟩).name) n →
      ∃ j, ∃ hj : j < l.length, j < i ∧ (l.get ⟨j, hj⟩).name = n := by
  intro i hi n h
  induction h with
  | single hstep =>
    obtain ⟨pd, hpd, hmem⟩ := depName_elim hstep
    have hlkp := hlk (l.get ⟨i, hi⟩) (List.get_mem l i hi)
    rw [hlkp] at hpd
    cases hpd
    exact hg i hi _ hmem
  | tail hchain hstep ih =>
    obtain ⟨j, hj, hji, hname⟩ := ih
    obtain ⟨pd, hpd, hmem⟩ := depName_elim hstep
    rw [← hname] at hpd
    have hlkp := hlk (l.get ⟨j, hj⟩) (List.get_mem l j hj)
    rw [hlkp] at hpd
    cases hpd
    obtain ⟨j', hj', hj'j, hname'⟩ := hg j hj _ hmem
    exact ⟨j', hj', by omega, hname'⟩

/-- Factored-out fact: at the top level the fuel chosen by
`topologicalSortPackages` is never exhausted, whatever the registry. -/
theorem visitMany_top_ne_fuel (pkgs : List (String × PackageDetails)) :
    visitMany pkgs (sortFuel pkgs) (pkgs.map Prod.fst) [] ⟨[], []⟩ ≠ .error .fuel := by
  apply visitMany_ne_fuel
  have h1 := sum_weight_le pkgs
  have h2 : (⟨[], []⟩ : SortState).visited.toFinset = ∅ := rfl
  rw [h2, Finset.sdiff_empty, List.length_map]
  simp only [sortFuel]
  omega

/-- Shape of the missing-package error: the missing name does not resolve,
and the recorded path is a genuine dependency chain ending at that name. -/
theorem visitMany_error_shape (pkgs : List (String × PackageDetails)) :
    ∀ fuel names path st m q,
      visitMany pkgs fuel names path st = .error (.missing m q) →
      List.Chain' (depName pkgs) path →
      (∀ n ∈ names, ∀ x, path.getLast? = some x → depName pkgs x n) →
      lookupPkg pkgs m = none ∧ q.getLast? = some m ∧
        List.Chain' (depName pkgs) q ∧ q ≠ [] := by
  intro fuel
  induction fuel with
  | zero =>
    intro names path st m q h hchain hlink
    cases names with
    | nil => rw [visitMany_nil] at h; cases h
    | cons name rest => simp [visitMany] at h
  | succ fuel ih =>
    intro names path st m q h hchain hlink
    cases names with
    | nil => rw [visitMany_nil] at h; cases h
    | cons name rest =>
      rw [visitMany] at h
      by_cases hv : name ∈ st.visited
      · rw [if_pos hv] at h
        exact ih rest path st m q h hchain
          (fun n hn x hx => hlink n (List.mem_cons_of_mem _ hn) x hx)
      · rw [if_neg hv] at h
        have hchain1 : List.Chain' (depName pkgs) (path ++ [name]) := by
          rw [List.chain'_append]
          refine ⟨hchain, List.chain'_singleton _, ?_⟩
          intro x hx y hy
          rw [List.head?_cons, Option.mem_def, Option.some_inj] at hy
          subst hy
          exact hlink name (List.mem_cons_self _ _) x hx
        cases hl : lookupPkg pkgs name with
        | none =>
          rw [hl] at h
          dsimp only at h
          cases h
          refine ⟨hl, ?_, hchain1, by simp⟩
          simp
        | some pd =>
          rw [hl] at h
          dsimp only at h
          cases hdep : visitMany pkgs fuel pd.localDeps (path ++ [name])
              ⟨st.sorted, name :: st.visited⟩ with
          | error e =>
            rw [hdep] at h
            dsimp only at h
            cases e with
            | fuel => cases h
            | missing m' q' =>
              cases h
              refine ih _ _ _ m q hdep hchain1 ?_
              intro n hn x hx
              have hx' : x = name := by
                rw [List.getLast?_append] at hx
                · exact (by simpa using hx : name = x).symm
              subst hx'
              exact depName_intro hl hn
          | ok st2 =>
            rw [hdep] at h
            dsimp only at h
            exact ih rest path _ m q h hchain
              (fun n hn x hx => hlink n (List.mem_cons_of_mem _ hn) x hx)

/-- Counting invariant of a successful run: newly output packages carry
previously unvisited names, the output names stay `Nodup`, and at the end
every visited name is either an initially visited one or an output name. -/
theorem visitMany_count (pkgs : List (String × PackageDetails))
    (hKC : keyConsistent pkgs) :
    ∀ fuel names path st st',
      visitMany pkgs fuel names path st = .ok st' →
      (∀ p ∈ st.sorted, lookupPkg pkgs p.name = some p) →
      (namesOf st.sorted).Nodup →
      (∀ p ∈ st.sorted, p.name ∈ st.visited) →
      (∃ Δ, st'.sorted = st.sorted ++ Δ ∧ ∀ p ∈ Δ, p.name ∉ st.visited) ∧
      (namesOf st'.sorted).Nodup ∧
      (∀ p ∈ st'.sorted, lookupPkg pkgs p.name = some p) ∧
      (∀ p ∈ st'.sorted, p.name ∈ st'.visited) ∧
      (∀ v ∈ st'.visited, v ∈ st.visited ∨ v ∈ namesOf st'.sorted) := by
  intro fuel
  induction fuel with
  | zero =>
    intro names path st st' h hlk hnd hincl
    cases names with
    | nil =>
      rw [visitMany_nil] at h
      cases h
      exact ⟨⟨[], by simp, by simp⟩, hnd, hlk, hincl, fun v hv => Or.inl hv⟩
    | cons name rest => simp [visitMany] at h
  | succ fuel ih =>
    intro names path st st' h hlk hnd hincl
    cases names with
    | nil =>
      rw [visitMany_nil] at h
      cases h
      exact ⟨⟨[], by simp, by simp⟩, hnd, hlk, hincl, fun v hv => Or.inl hv⟩
    | cons name rest =>
      rw [visitMany] at h
      by_cases hv : name ∈ st.visited
      · rw [if_pos hv] at h
        exact ih rest path st st' h hlk hnd hincl
      · rw [if_neg hv] at h
        cases hl : lookupPkg pkgs name with
        | none => rw [hl] at h; cases h
        | some pd =>
          rw [hl] at h
          dsimp only at h
          cases hdep : visitMany pkgs fuel pd.localDeps (path ++ [name])
              ⟨st.sorted, name :: st.visited⟩ with
          | error e => rw [hdep] at h; cases h
          | ok st2 =>
            rw [hdep] at h
            dsimp only at h
            have hpdname : pd.name = name := lookupPkg_name_eq hKC hl
            obtain ⟨⟨Δd, hΔd, hΔdv⟩, dnd, dlk, dincl, dvis⟩ := ih _ _ _ _ hdep hlk hnd
              (fun p hp => List.mem_cons_of_mem _ (hincl p hp))
            have hnvs : name ∉ namesOf st.sorted := by
              intro hns
              obtain ⟨p, hp, hpn⟩ := List.mem_map.1 hns
              exact hv (hpn ▸ hincl p hp)
            have hnΔd : name ∉ namesOf Δd := by
              intro hns
              obtain ⟨p, hp, hpn⟩ := List.mem_map.1 hns
              exact hΔdv p hp (hpn ▸ List.mem_cons_self _ _)
            have hnd3 : (namesOf (st2.sorted ++ [pd])).Nodup := by
              simp only [namesOf, List.map_append, List.map_cons, List.map_nil]
              rw [List.nodup_append]
              refine ⟨dnd, List.nodup_singleton _, ?_⟩
              intro x hx hx'
              rw [List.mem_singleton.1 hx', hpdname] at hx
              rw [hΔd] at hx
              simp only [namesOf, List.map_append, List.mem_append] at hx
              rcases hx with hx | hx
              · exact hnvs hx
              · exact hnΔd hx
            have hdepmono := (visitMany_ok_shape pkgs fuel _ _ _ _ hdep).1
            have hnamest2 : name ∈ st2.visited :=
              hdepmono name (List.mem_cons_self _ _)
            have hlk3 : ∀ p ∈ st2.sorted ++ [pd], lookupPkg pkgs p.name = some p := by
              intro p hp
              rcases List.mem_append.1 hp with hp | hp
              · exact dlk p hp
              · rw [List.mem_singleton.1 hp, hpdname, hl]
            have hincl3 : ∀ p ∈ st2.sorted ++ [pd], p.name ∈ st2.visited := by
              intro p hp
              rcases List.mem_append.1 hp with hp | hp
              · exact dincl p hp
              · rw [List.mem_singleton.1 hp, hpdname]
                exact hnamest2
            obtain ⟨⟨Δr, hΔr, hΔrv⟩, rnd, rlk, rincl, rvis⟩ :=
              ih rest path ⟨st2.sorted ++ [pd], st2.visited⟩ st' h hlk3 hnd3 hincl3
            refine ⟨⟨Δd ++ [pd] ++ Δr, ?_, ?_⟩, rnd, rlk, rincl, ?_⟩
            · rw [hΔr]
              dsimp only
              rw [hΔd]
              simp
            · intro p hp
              simp only [List.append_assoc, List.mem_append, List.mem_singleton] at hp
              rcases hp with hp | hp | hp
              · exact fun hc => hΔdv p hp (List.mem_cons_of_mem _ hc)
              · rw [hp, hpdname]; exact hv
              · intro hc
                apply hΔrv p hp
                dsimp only
                exact hdepmono _ (List.mem_cons_of_mem _ hc)
            · intro v hvf
              rcases rvis v hvf with hv3 | hv3
              · dsimp only at hv3
                rcases dvis v hv3 with hv1 | hv1
                · rcases List.mem_cons.1 hv1 with hve | hvm
                  · right
                    rw [hΔr]
                    dsimp only
                    simp only [namesOf, List.map_append, List.mem_append]
                    left
                    right
                    simp [hve, hpdname]
                  · exact Or.inl hvm
                · right
                  rw [hΔr]
                  dsimp only
                  simp only [namesOf, List.map_append, List.mem_append] at hv1 ⊢
                  left
                  left
                  exact hv1
              · right
                rw [hΔr] at hv3 ⊢
                exact hv3

/-! ## Decidable sufficient conditions for the registry hypotheses,
used to instantiate the theorems on concrete registries. -/

theorem keyConsistent_of_all {pkgs : List (String × PackageDetails)}
    (h : pkgs.all (fun kv => kv.2.name == kv.1) = true) : keyConsistent pkgs := by
  intro kv hkv
  have := List.all_eq_true.1 h kv hkv
  exact beq_iff_eq.1 this

theorem depsClosed_of_all {pkgs : List (String × PackageDetails)}
    (h : pkgs.all (fun kv => kv.2.localDeps.all (fun d => (lookupPkg pkgs d).isSome)) = true) :
    depsClosed pkgs := by
  intro k pd hk d hd
  have hmem := lookupPkg_some_mem hk
  have := List.all_eq_true.1 h (k, pd) hmem
  exact List.all_eq_true.1 this d hd

theorem acyclic_of_rank {pkgs : List (String × PackageDetails)} (rank : String → Nat)
    (h : pkgs.all (fun kv => kv.2.localDeps.all (fun d => rank d < rank kv.1)) = true) :
    acyclicDeps pkgs := by
  have hstep : ∀ a b, depName pkgs a b → rank b < rank a := by
    intro a b hab
    obtain ⟨pd, hpd, hmem⟩ := depName_elim hab
    have h1 := List.all_eq_true.1 h (a, pd) (lookupPkg_some_mem hpd)
    have h2 := List.all_eq_true.1 h1 b hmem
    exact of_decide_eq_true h2
  intro n hcyc
  have hlt : ∀ x y, Relation.TransGen (depName pkgs) x y → rank y < rank x := by
    intro x y hxy
    induction hxy with
    | single hs => exact hstep _ _ hs
    | tail _ hs ih => exact lt_trans (hstep _ _ hs) ih
  exact lt_irrefl _ (hlt n n hcyc)

/-! ## Claim theorems for the topological sorter -/

/-- **C1.**  For every registry of packages whose dependency relation
(`localDeps`) is acyclic and in which every `localDeps` name resolves to a
package in the registry, the sequence returned by `topologicalSortPackages`
places every package strictly after all of its direct and transitive
`localDeps`.  (The registry is key-consistent: each key maps to the package
bearing that name, as `getAllPackageDetails` builds it.) -/
theorem topologicalSort_respects_localDeps (pkgs : List (String × PackageDetails))
    (hKC : keyConsistent pkgs) (hcl : depsClosed pkgs) (hacyc : acyclicDeps pkgs) :
    ∃ l, topologicalSortPackages pkgs = .ok l ∧
      ∀ i, ∀ hi : i < l.length, ∀ n,
        Relation.TransGen (depName pkgs) ((l.get ⟨i, hi⟩).name) n →
        ∃ j, ∃ hj : j < l.length, j < i ∧ (l.get ⟨j, hj⟩).name = n := by
  obtain ⟨st, hst⟩ := visitMany_top_ok pkgs hcl
  refine ⟨st.sorted, by simp [topologicalSortPackages, hst], ?_⟩
  obtain ⟨g1, g2, _, _, _⟩ := visitMany_good pkgs hKC hacyc _ _ _ _ _ hst
    (by intro i hi; simp at hi) (by simp) (by simp) (by simp)
  exact good_trans g1 g2

/-- Witness for C1 on the two-package chain `a → b`: the sort succeeds with
`b` before `a`, and the ordering property is obtained by instantiating the
theorem. -/
theorem topologicalSort_respects_localDeps_witness :
    topologicalSortPackages
        [("a", ⟨"a", "pa", ["b"], "1.0.0"⟩), ("b", ⟨"b", "pb", [], "1.0.0"⟩)]
      = .ok [⟨"b", "pb", [], "1.0.0"⟩, ⟨"a", "pa", ["b"], "1.0.0"⟩] ∧
    (∃ l, topologicalSortPackages
        [("a", ⟨"a", "pa", ["b"], "1.0.0"⟩), ("b", ⟨"b", "pb", [], "1.0.0"⟩)] = .ok l ∧
      ∀ i, ∀ hi : i < l.length, ∀ n,
        Relation.TransGen
          (depName [("a", ⟨"a", "pa", ["b"], "1.0.0"⟩), ("b", ⟨"b", "pb", [], "1.0.0"⟩)])
          ((l.get ⟨i, hi⟩).name) n →
        ∃ j, ∃ hj : j < l.length, j < i ∧ (l.get ⟨j, hj⟩).name = n) :=
  ⟨by decide,
    topologicalSort_respects_localDeps _
      (keyConsistent_of_all (by decide))
      (depsClosed_of_all (by decide))
      (acyclic_of_rank (fun n => if n = "a" then 1 else 0) (by decide))⟩

/-- **C4.**  For every registry in which some package's `localDeps` contains
a name absent from the registry, `topologicalSortPackages` fails by throwing
the missing-package error; the error carries the missing name and a genuine
dependency chain (consecutive `localDeps` edges) ending at the missing name,
and the thrown message embeds both. -/
theorem topologicalSort_missing_dep (pkgs : List (String × PackageDetails))
    (hbad : ∃ k pd n, lookupPkg pkgs k = some pd ∧ n ∈ pd.localDeps ∧
      lookupPkg pkgs n = none) :
    ∃ m q, topologicalSortPackages pkgs = .error (.missing m q) ∧
      lookupPkg pkgs m = none ∧ q.getLast? = some m ∧ q ≠ [] ∧
      List.Chain' (depName pkgs) q ∧
      topoErrMessage m q
        = "Could not find package " ++ m ++ ". path: "
            ++ String.intercalate " -> " q := by
  obtain ⟨k, pd, n, hk, hn, hnone⟩ := hbad
  cases hres : visitMany pkgs (sortFuel pkgs) (pkgs.map Prod.fst) [] ⟨[], []⟩ with
  | ok st =>
    exfalso
    obtain ⟨_, _, c, d⟩ := visitMany_ok_shape pkgs _ _ _ _ _ hres
    have hkv : k ∈ st.visited := c k (lookupPkg_some_key_mem hk)
    obtain ⟨pd', hpd', hdeps⟩ := d k hkv (by simp)
    rw [hk] at hpd'
    injection hpd' with hpp
    subst hpp
    obtain ⟨pd'', hpd'', _⟩ := d n (hdeps n hn) (by simp)
    rw [hnone] at hpd''
    cases hpd''
  | error e =>
    cases e with
    | fuel => exact absurd hres (visitMany_top_ne_fuel pkgs)
    | missing m q =>
      obtain ⟨s1, s2, s3, s4⟩ := visitMany_error_shape pkgs _ _ _ _ m q hres
        (by simp) (by intro x hx y hy; simp at hy)
      exact ⟨m, q, by simp [topologicalSortPackages, hres], s1, s2, s4, s3, rfl⟩

/-- Witness for C4 on the registry `a → x` with `x` unregistered: the sort
throws `Could not find package x. path: a -> x`. -/
theorem topologicalSort_missing_dep_witness :
    topologicalSortPackages [("a", ⟨"a", "pa", ["x"], "1.0.0"⟩)]
      = .error (.missing "x" ["a", "x"]) ∧
    (∃ m q, topologicalSortPackages [("a", ⟨"a", "pa", ["x"], "1.0.0"⟩)]
        = .error (.missing m q) ∧
      lookupPkg [("a", ⟨"a", "pa", ["x"], "1.0.0"⟩)] m = none ∧
      q.getLast? = some m ∧ q ≠ [] ∧
      List.Chain' (depName [("a", ⟨"a", "pa", ["x"], "1.0.0"⟩)]) q ∧
      topoErrMessage m q
        = "Could not find package " ++ m ++ ". path: "
            ++ String.intercalate " -> " q) :=
  ⟨by decide,
    topologicalSort_missing_dep _
      ⟨"a", ⟨"a", "pa", ["x"], "1.0.0"⟩, "x", by decide, by decide, by decide⟩⟩

/-- **C9.**  For every (key-consistent, duplicate-free) registry in which
every `localDeps` name resolves — including registries whose dependency
relation contains cycles — `topologicalSortPackages` terminates and returns
a sequence containing each package of the registry exactly once; dependency
cycles are never detected or reported as an error. -/
theorem topologicalSort_total_each_once (pkgs : List (String × PackageDetails))
    (hKC : keyConsistent pkgs) (hcl : depsClosed pkgs)
    (hnd : (pkgs.map Prod.fst).Nodup) :
    ∃ l, topologicalSortPackages pkgs = .ok l ∧
      (namesOf l).Perm (pkgs.map Prod.fst) := by
  obtain ⟨st, hst⟩ := visitMany_top_ok pkgs hcl
  refine ⟨st.sorted, by simp [topologicalSortPackages, hst], ?_⟩
  obtain ⟨_, cnd, clk, _, cvis⟩ := visitMany_count pkgs hKC _ _ _ _ _ hst
    (by simp) (by simp [namesOf]) (by simp)
  obtain ⟨_, _, c3, _⟩ := visitMany_ok_shape pkgs _ _ _ _ _ hst
  apply List.perm_of_nodup_nodup_toFinset_eq cnd hnd
  ext x
  simp only [List.mem_toFinset]
  constructor
  · intro hx
    obtain ⟨p, hp, hpn⟩ := List.mem_map.1 (by simpa [namesOf] using hx)
    exact hpn ▸ lookupPkg_some_key_mem (clk p hp)
  · intro hx
    rcases cvis x (c3 x hx) with h | h
    · simp at h
    · exact h

/-- Witness for C9 on the cyclic registry `a ↔ b`: the sort neither loops
nor reports the cycle, and outputs each package once. -/
theorem topologicalSort_total_each_once_witness :
    topologicalSortPackages
        [("a", ⟨"a", "pa", ["b"], "1.0.0"⟩), ("b", ⟨"b", "pb", ["a"], "1.0.0"⟩)]
      = .ok [⟨"b", "pb", ["a"], "1.0.0"⟩, ⟨"a", "pa", ["b"], "1.0.0"⟩] ∧
    (∃ l, topologicalSortPackages
        [("a", ⟨"a", "pa", ["b"], "1.0.0"⟩), ("b", ⟨"b", "pb", ["a"], "1.0.0"⟩)]
        = .ok l ∧
      (namesOf l).Perm ["a", "b"]) :=
  ⟨by decide,
    topologicalSort_total_each_once _
      (keyConsistent_of_all (by decide))
      (depsClosed_of_all (by decide))
      (by decide)⟩

/-! ## Retry engine

The source's `retry(fn, opts)` resolves as soon as one invocation of `fn`
resolves; on rejection it increments `attempts` and either rejects (once
`attempts >= opts.numAttempts`) or schedules another attempt after
`opts.delay` milliseconds.  The embedding records, besides the final result,
the argument object of every invocation and every delay waited. -/

/-- The argument object `{ attempt, remaining, total }` passed to the
retried operation. -/
structure RetryArgs where
  attempt : Nat
  remaining : Int
  total : Int
deriving DecidableEq, Repr

/-- Observable outcome of a retry loop: `result = none` when the promise
resolved, `some e` when it rejected with `e`; `argsList` records the
argument object of each invocation in order; `waits` records each
`setTimeout` delay waited between attempts. -/
structure RetryOutcome (ε : Type) where
  result : Option ε
  argsList : List RetryArgs
  waits : List Int
deriving DecidableEq, Repr

/-- One round of `retry`'s inner `attempt()` loop, with the attempt counter
at `attempts`.  `gas` only makes the embedded recursion total; `retry` below
passes enough gas that the bound is never reached (the loop terminates
because `attempts` strictly increases towards `numAttempts`). -/
def retryGo {ε : Type} (op : RetryArgs → Except ε Unit) (numAttempts delay : Int) :
    Nat → Nat → RetryOutcome ε
  | 0, attempts =>
    match op ⟨attempts, numAttempts - attempts, numAttempts⟩ with
    | .ok _ => ⟨none, [⟨attempts, numAttempts - attempts, numAttempts⟩], []⟩
    | .error e => ⟨some e, [⟨attempts, numAttempts - attempts, numAttempts⟩], []⟩
  | gas + 1, attempts =>
    match op ⟨attempts, numAttempts - attempts, numAttempts⟩ with
    | .ok _ => ⟨none, [⟨attempts, numAttempts - attempts, numAttempts⟩], []⟩
    | .error e =>
      if (attempts + 1 : Int) ≥ numAttempts then
        ⟨some e, [⟨attempts, numAttempts - attempts, numAttempts⟩], []⟩
      else
        let rest := retryGo op numAttempts delay gas (attempts + 1)
        ⟨rest.result, ⟨attempts, numAttempts - attempts, numAttempts⟩ :: rest.argsList,
          delay :: rest.waits⟩

/-- `retry(fn, { numAttempts, delay })`: start the loop at `attempts = 0`. -/
def retry {ε : Type} (op : RetryArgs → Except ε Unit) (numAttempts delay : Int) :
    RetryOutcome ε :=
  retryGo op numAttempts delay numAttempts.toNat 0

/-- The retry loop always invokes the operation at least once. -/
theorem retryGo_args_nonempty {ε : Type} (op : RetryArgs → Except ε Unit)
    (N d : Int) (gas a : Nat) :
    1 ≤ (retryGo op N d gas a).argsList.length := by
  cases gas with
  | zero =>
    rw [retryGo]
    cases op ⟨a, N - a, N⟩ <;> simp
  | succ g =>
    rw [retryGo]
    cases op ⟨a, N - a, N⟩ with
    | ok u => simp
    | error e =>
      dsimp only
      split
      · simp
      · simp

/-- The invocations of a retry loop started at counter `a` receive, in
order, the arguments `{ attempt := j, remaining := N - j, total := N }` for
`j = a, a + 1, ...`. -/
theorem retryGo_args_eq {ε : Type} (op : RetryArgs → Except ε Unit) (N d : Int) :
    ∀ gas a, ∃ n, 1 ≤ n ∧
      (retryGo op N d gas a).argsList
        = (List.range' a n).map (fun j => (⟨j, N - j, N⟩ : RetryArgs)) := by
  intro gas
  induction gas with
  | zero =>
    intro a
    refine ⟨1, le_refl _, ?_⟩
    rw [retryGo]
    cases op ⟨a, N - a, N⟩ <;> simp [List.range']
  | succ g ih =>
    intro a
    rw [retryGo]
    cases op ⟨a, N - a, N⟩ with
    | ok u => exact ⟨1, le_refl _, by simp [List.range']⟩
    | error e =>
      dsimp only
      by_cases hge : (a + 1 : Int) ≥ N
      · rw [if_pos hge]
        exact ⟨1, le_refl _, by simp [List.range']⟩
      · rw [if_neg hge]
        obtain ⟨n, hn, heq⟩ := ih (a + 1)
        refine ⟨n + 1, by omega, ?_⟩
        rw [List.range'_succ, List.map_cons]
        dsimp only
        rw [heq]

/-- If the invocations with counter values in `[a, m)` all fail, the
invocation at `m` succeeds, and `m < numAttempts`, the loop resolves after
exactly the invocations `a..m`, waiting the delay `m - a` times. -/
theorem retryGo_succeeds {ε : Type} (op : RetryArgs → Except ε Unit) (N d : Int) :
    ∀ gas a m : Nat,
      a ≤ m → (m : Int) < N → N.toNat ≤ gas + a →
      (∀ j, a ≤ j → j < m → ∃ e, op ⟨j, N - j, N⟩ = .error e) →
      op ⟨m, N - m, N⟩ = .ok () →
      retryGo op N d gas a
        = ⟨none,
            (List.range' a (m - a + 1)).map (fun j => (⟨j, N - j, N⟩ : RetryArgs)),
            List.replicate (m - a) d⟩ := by
  intro gas
  induction gas with
  | zero =>
    intro a m ham hmN hgas herr hok
    exfalso
    omega
  | succ g ih =>
    intro a m ham hmN hgas herr hok
    rw [retryGo]
    rcases Nat.eq_or_lt_of_le ham with heq | hlt
    · subst heq
      rw [hok]
      simp [List.range']
    · obtain ⟨e, he⟩ := herr a (le_refl _) hlt
      rw [he]
      dsimp only
      have hnot : ¬ (a + 1 : Int) ≥ N := by omega
      rw [if_neg hnot]
      rw [ih (a + 1) m hlt hmN (by omega) (fun j hj1 hj2 => herr j (by omega) hj2) hok]
      dsimp only
      have h1 : m - a + 1 = (m - (a + 1) + 1) + 1 := by omega
      have h2 : m - a = (m - (a + 1)) + 1 := by omega
      conv_rhs => rw [h1, List.range'_succ, List.map_cons, h2, List.replicate_succ]

/-- If every invocation fails, the loop runs the counter from `a` to
`numAttempts - 1` and rejects with the error of the last invocation. -/
theorem retryGo_all_fail {ε : Type} (op : RetryArgs → Except ε Unit) (N d : Int)
    (err : Nat → ε) (herr : ∀ j : Nat, op ⟨j, N - j, N⟩ = .error (err j)) :
    ∀ gas a : Nat, (a : Int) < N → N.toNat ≤ gas + a →
      retryGo op N d gas a
        = ⟨some (err (N.toNat - 1)),
            (List.range' a (N.toNat - a)).map (fun j => (⟨j, N - j, N⟩ : RetryArgs)),
            List.replicate (N.toNat - 1 - a) d⟩ := by
  intro gas
  induction gas with
  | zero =>
    intro a ha hgas
    exfalso
    omega
  | succ g ih =>
    intro a ha hgas
    rw [retryGo, herr a]
    dsimp only
    by_cases hge : (a + 1 : Int) ≥ N
    · rw [if_pos hge]
      have h3 : N.toNat - 1 - a = 0 := by omega
      rw [h3]
      have h1 : N.toNat - 1 = a := by omega
      have h2 : N.toNat - a = 1 := by omega
      rw [h1, h2]
      simp [List.range']
    · rw [if_neg hge]
      rw [ih (a + 1) (by omega) (by omega)]
      dsimp only
      have h1 : N.toNat - a = (N.toNat - (a + 1)) + 1 := by omega
      have h2 : N.toNat - 1 - a = (N.toNat - 1 - (a + 1)) + 1 := by omega
      conv_rhs => rw [h1, List.range'_succ, List.map_cons, h2, List.replicate_succ]

/-! ## Claim theorems for the retry engine -/

/-- **C2.**  For every operation and `numAttempts ≥ 1`: if the operation
succeeds on its `n`-th invocation with `n ≤ numAttempts`, `retry` resolves
and the operation is invoked exactly `n` times; if the operation fails on
every invocation, `retry` invokes it exactly `numAttempts` times and rejects
with the error of the last invocation. -/
theorem retry_invocation_counts {ε : Type} (op : RetryArgs → Except ε Unit)
    (errs : Nat → ε) (N d : Int) (hN : 1 ≤ N) :
    (∀ n : Nat, 1 ≤ n → (n : Int) ≤ N →
      (∀ j, j < n - 1 → ∃ e, op ⟨j, N - j, N⟩ = .error e) →
      op ⟨n - 1, N - ((n - 1 : Nat) : Int), N⟩ = .ok () →
      (retry op N d).result = none ∧ (retry op N d).argsList.length = n) ∧
    ((∀ j : Nat, op ⟨j, N - j, N⟩ = .error (errs j)) →
      (retry op N d).result = some (errs (N.toNat - 1)) ∧
      (retry op N d).argsList.length = N.toNat) := by
  constructor
  · intro n hn1 hnN herr hok
    have h := retryGo_succeeds op N d N.toNat 0 (n - 1) (by omega) (by omega)
      (by omega) (fun j _ hj2 => herr j hj2) hok
    rw [retry, h]
    refine ⟨rfl, ?_⟩
    simp only [List.length_map, List.length_range']
    omega
  · intro herr
    have h := retryGo_all_fail op N d errs herr N.toNat 0 (by omega) (by omega)
    rw [retry, h]
    refine ⟨rfl, ?_⟩
    simp only [List.length_map, List.length_range']
    omega

/-- Witness for C2: with `numAttempts = 5`, an operation failing on attempts
0 and 1 and succeeding on attempt 2 is invoked exactly 3 times and resolves;
with `numAttempts = 3`, an always-failing operation is invoked exactly 3
times and the loop rejects with the last error. -/
theorem retry_invocation_counts_witness :
    ((retry (fun a => if a.attempt < 2 then Except.error a.attempt else Except.ok ())
        5 11).result = none ∧
      (retry (fun a => if a.attempt < 2 then Except.error a.attempt else Except.ok ())
        5 11).argsList.length = 3) ∧
    ((retry (fun a => Except.error a.attempt) 3 11).result = some 2 ∧
      (retry (fun a => Except.error a.attempt) 3 11).argsList.length = 3) :=
  ⟨(retry_invocation_counts
        (fun a => if a.attempt < 2 then Except.error a.attempt else Except.ok ())
        (fun j => j) 5 11 (by norm_num)).1 3 (by norm_num) (by norm_num)
      (fun j hj => ⟨j, by interval_cases j <;> rfl⟩) rfl,
    (retry_invocation_counts (fun a => Except.error a.attempt)
        (fun j => j) 3 11 (by norm_num)).2 (fun j => rfl)⟩

/-- **C7.**  On the `k`-th invocation (0-based) the operation receives
`{ attempt := k, remaining := numAttempts - k, total := numAttempts }`;
in particular `attempt` is `0` on the first call and increments by one per
(failed) attempt. -/
theorem retry_reports_attempt_args {ε : Type} (op : RetryArgs → Except ε Unit)
    (N d : Int) (k : Nat) (hk : k < (retry op N d).argsList.length) :
    (retry op N d).argsList.get ⟨k, hk⟩ = ⟨k, N - k, N⟩ := by
  obtain ⟨n, hn, heq⟩ := retryGo_args_eq op N d N.toNat 0
  have heq' : (retry op N d).argsList
      = (List.range' 0 n).map (fun j => (⟨j, N - j, N⟩ : RetryArgs)) := by
    rw [retry]
    exact heq
  rw [List.get_of_eq heq' ⟨k, hk⟩]
  simp [List.get_eq_getElem, List.getElem_map, List.getElem_range']

/-- Witness for C7: an always-failing operation with `numAttempts = 3`
reports `attempt = 1`, `remaining = 2`, `total = 3` on its second call. -/
theorem retry_reports_attempt_args_witness :
    (retry (fun _ => Except.error (0 : Nat)) 3 7).argsList.get ⟨1, by decide⟩
      = ⟨1, 3 - ((1 : Nat) : Int), 3⟩ :=
  retry_reports_attempt_args (fun _ => Except.error (0 : Nat)) 3 7 1 (by decide)

/-- **C10.**  `retry` invokes the operation at least once for every value of
`numAttempts`, including zero and negative values; with `numAttempts ≤ 0` a
failing operation is invoked exactly once and its error is rejected
immediately, without waiting the delay. -/
theorem retry_first_call_unconditional {ε : Type} (op : RetryArgs → Except ε Unit)
    (N d : Int) :
    1 ≤ (retry op N d).argsList.length ∧
    (N ≤ 0 → ∀ e, op ⟨0, N, N⟩ = .error e →
      retry op N d = ⟨some e, [⟨0, N, N⟩], []⟩) := by
  constructor
  · exact retryGo_args_nonempty op N d N.toNat 0
  · intro hN e he
    have hgas : N.toNat = 0 := by omega
    rw [retry, hgas, retryGo]
    simp only [Nat.cast_zero, sub_zero]
    rw [he]

/-- Witness for C10 at `numAttempts = -2`: the failing operation still runs
once, the loop rejects with its error, and no delay is waited. -/
theorem retry_first_call_unconditional_witness :
    1 ≤ (retry (fun _ => Except.error "E") (-2) 5).argsList.length ∧
    retry (fun _ => Except.error "E") (-2) 5 = ⟨some "E", [⟨0, -2, -2⟩], []⟩ :=
  ⟨(retry_first_call_unconditional (fun _ => Except.error "E") (-2) 5).1,
    (retry_first_call_unconditional (fun _ => Except.error "E") (-2) 5).2
      (by norm_num) "E" rfl⟩

/-! ## The publish step and the availability-confirmation step

The two retried closures inside `publish()`.  Command execution and the
registry are external; they are represented by the per-invocation outcome
(`world k` / `statuses k` for the `k`-th invocation). -/

/-- The tolerated duplicate-publish message inspected by the publish step. -/
def tolerateMessage : String :=
  "You cannot publish over the previously published versions"

/-- Substring test on element lists: `pat` occurs contiguously in `l`. -/
def listContains (pat : List Char) : List Char → Bool
  | [] => pat.isEmpty
  | c :: rest => pat.isPrefixOf (c :: rest) || listContains pat rest

/-- JS `s.includes(pattern)`. -/
def strIncludes (s pattern : String) : Bool :=
  listContains pattern.data s.data

/-- The captured `output` of the publish command: every stdout and stderr
line, in delivery order, each with `'\n'` appended. -/
def capturedOutput (lines : List String) : String :=
  lines.foldl (fun acc l => acc ++ l ++ "\n") ""

/-- Result of one execution of the publish command: the delivered output
lines and whether the `exec` promise resolved or rejected. -/
structure ExecOutcome (ε : Type) where
  lines : List String
  result : Except ε Unit
deriving DecidableEq, Repr

/-- The body of the closure retried by the publish step: run the command;
on failure succeed anyway if the captured output contains the tolerated
duplicate-publish message, otherwise rethrow the error. -/
def publishAttempt {ε : Type} (outcome : ExecOutcome ε) : Except ε Unit :=
  match outcome.result with
  | .ok _ => .ok ()
  | .error e =>
    if strIncludes (capturedOutput outcome.lines) tolerateMessage then .ok ()
    else .error e

/-- The publish step: the attempt wrapped in the retry engine with
`{ delay: 10_000, numAttempts: 5 }`. -/
def publishStep {ε : Type} (world : Nat → ExecOutcome ε) : RetryOutcome ε :=
  retry (fun args => publishAttempt (world args.attempt)) 5 10000

/-- The body of the closure retried by the availability step: `HEAD` the
tarball URL; a status of at least 400 throws `Package not found: ${status}`. -/
def availabilityAttempt (status : Nat) : Except String Unit :=
  if status ≥ 400 then .error ("Package not found: " ++ toString status)
  else .ok ()

/-- The availability-confirmation step: the attempt wrapped in the retry
engine with `{ delay: 3000, numAttempts: 10 }`. -/
def confirmStep (statuses : Nat → Nat) : RetryOutcome String :=
  retry (fun args => availabilityAttempt (statuses args.attempt)) 10 3000

/-- **C5.**  If the publish command fails on the first invocation but its
captured output contains the tolerated duplicate-publish substring, the
attempt is treated as successful: the retry wrapper resolves after exactly
one invocation, with no further attempt and no wait. -/
theorem publish_tolerates_republish {ε : Type} (world : Nat → ExecOutcome ε)
    (e : ε) (hfail : (world 0).result = .error e)
    (hmsg : strIncludes (capturedOutput (world 0).lines) tolerateMessage = true) :
    publishStep world = ⟨none, [⟨0, 5, 5⟩], []⟩ := by
  rw [publishStep, retry]
  have hgas : (5 : Int).toNat = 5 := rfl
  rw [hgas, retryGo]
  have hop : publishAttempt (world 0) = .ok () := by
    rw [publishAttempt, hfail]
    dsimp only
    rw [if_pos hmsg]
  simp only [Nat.cast_zero, sub_zero]
  rw [hop]

/-- Witness for C5: a failing command whose only output line is the
tolerated message resolves in one attempt. -/
theorem publish_tolerates_republish_witness :
    publishStep (fun _ => (⟨[tolerateMessage], Except.error "EOTP"⟩ : ExecOutcome String))
      = ⟨none, [⟨0, 5, 5⟩], []⟩ :=
  publish_tolerates_republish
    (fun _ => (⟨[tolerateMessage], Except.error "EOTP"⟩ : ExecOutcome String))
    "EOTP" rfl (by decide)

/-- **C6.**  The availability check treats status `≥ 400` as not-yet-
available (throwing `Package not found: ${status}`) and status `< 400` as
success; it is retried with fixed delay 3000 and up to 10 attempts: nine
404s followed by a 200 succeed after exactly 10 invocations, ten 404s fail
fatally after 10 invocations.  The publish step retries with fixed delay
10000 and up to 5 attempts. -/
theorem availability_check_and_retry_configs :
    (∀ s : Nat, 400 ≤ s →
      availabilityAttempt s = .error ("Package not found: " ++ toString s)) ∧
    (∀ s : Nat, s < 400 → availabilityAttempt s = .ok ()) ∧
    (∀ statuses : Nat → Nat, (∀ k, k < 9 → statuses k = 404) → statuses 9 = 200 →
      (confirmStep statuses).result = none ∧
      (confirmStep statuses).argsList.length = 10 ∧
      (confirmStep statuses).waits = List.replicate 9 3000) ∧
    (∀ statuses : Nat → Nat, (∀ k, statuses k = 404) →
      (confirmStep statuses).result = some ("Package not found: " ++ toString 404) ∧
      (confirmStep statuses).argsList.length = 10) ∧
    (∀ (world : Nat → ExecOutcome String) (e : String),
      (∀ k, (world k).result = .error e) →
      (∀ k, strIncludes (capturedOutput (world k).lines) tolerateMessage = false) →
      (publishStep world).result = some e ∧
      (publishStep world).argsList.length = 5 ∧
      (publishStep world).waits = List.replicate 4 10000) := by
  refine ⟨?_, ?_, ?_, ?_, ?_⟩
  · intro s hs
    rw [availabilityAttempt, if_pos hs]
  · intro s hs
    rw [availabilityAttempt, if_neg (by omega)]
  · intro statuses h404 h200
    have h := retryGo_succeeds (fun args => availabilityAttempt (statuses args.attempt))
      10 3000 (10 : Int).toNat 0 9 (by omega) (by norm_num) (by norm_num)
      (by
        intro j hj1 hj2
        refine ⟨"Package not found: " ++ toString 404, ?_⟩
        dsimp only
        rw [h404 j hj2, availabilityAttempt, if_pos (by omega)])
      (by
        dsimp only
        rw [h200, availabilityAttempt, if_neg (by omega)])
    rw [confirmStep, retry, h]
    exact ⟨rfl, rfl, rfl⟩
  · intro statuses h404
    have h := retryGo_all_fail (fun args => availabilityAttempt (statuses args.attempt))
      10 3000 (fun _ => "Package not found: " ++ toString 404)
      (by
        intro j
        dsimp only
        rw [h404 j, availabilityAttempt, if_pos (by omega)])
      (10 : Int).toNat 0 (by norm_num) (by norm_num)
    rw [confirmStep, retry, h]
    exact ⟨rfl, rfl⟩
  · intro world e hfail hmsg
    have h := retryGo_all_fail (fun args => publishAttempt (world args.attempt))
      5 10000 (fun _ => e)
      (by
        intro j
        dsimp only
        rw [publishAttempt, hfail j, hmsg j]
        simp)
      (5 : Int).toNat 0 (by norm_num) (by norm_num)
    rw [publishStep, retry, h]
    exact ⟨rfl, rfl, rfl⟩

/-- Witness for C6: concrete status sequences (nine 404s then a 200; all
404s) and a concrete always-failing publish world exercising the configured
attempt counts and delays. -/
theorem availability_check_and_retry_configs_witness :
    (confirmStep (fun k => if k < 9 then 404 else 200)).result = none ∧
    (confirmStep (fun k => if k < 9 then 404 else 200)).argsList.length = 10 ∧
    (confirmStep (fun k => if k < 9 then 404 else 200)).waits
      = List.replicate 9 3000 ∧
    (confirmStep (fun _ => 404)).result = some ("Package not found: " ++ toString 404) ∧
    (confirmStep (fun _ => 404)).argsList.length = 10 ∧
    (publishStep (fun _ => (⟨["err"], Except.error "EPERM"⟩ : ExecOutcome String))).result
      = some "EPERM" ∧
    (publishStep (fun _ => (⟨["err"], Except.error "EPERM"⟩ : ExecOutcome String))).waits
      = List.replicate 4 10000 := by
  obtain ⟨-, -, h3, h4, h5⟩ := availability_check_and_retry_configs
  obtain ⟨a1, a2, a3⟩ := h3 (fun k => if k < 9 then 404 else 200)
    (by intro k hk; simp [hk]) (by norm_num)
  obtain ⟨b1, b2⟩ := h4 (fun _ => 404) (fun k => rfl)
  obtain ⟨c1, -, c3⟩ := h5 (fun _ => (⟨["err"], Except.error "EPERM"⟩ : ExecOutcome String))
    "EPERM" (fun k => rfl)
    (fun k =>
      (by decide :
        strIncludes
          (capturedOutput
            (⟨["err"], Except.error "EPERM"⟩ : ExecOutcome String).lines)
          tolerateMessage = false))
  exact ⟨a1, a2, a3, b1, b2, c1, c3⟩

/-! ## The per-package tail of the publish sequencer

After the availability step, `publish()` runs, per package and in order:
two best-effort removals (`rm -rf tldraw-assets`, `rm -rf ./package`, each
in `try/catch {}`), then `curl`, `git clone`, `tar -xzf`,
`copyRecursiveSync`, `git checkout -b`, `git add`, `git commit`,
`git push -f` — none of which is guarded — and finally three best-effort
removals of the tarball, the cloned repository and `./package`.  The
embedding records which actions run and whether the cycle completes;
a failing unguarded action rejects immediately. -/

inductive PkgAct where
  | preRemoveAssets
  | preRemovePackage
  | downloadTarball
  | cloneAssets
  | extractTarball
  | copyPackage
  | checkoutBranch
  | gitAdd
  | gitCommit
  | gitPush
  | removeTarball
  | removeAssets
  | removePackage
deriving DecidableEq, Repr

/-- Which of the unguarded actions of one package cycle fail.  The
best-effort removals have no failure flags: their errors are caught and
ignored, so they continue the cycle either way. -/
structure CycleWorld where
  downloadFails : Bool
  cloneFails : Bool
  extractFails : Bool
  copyFails : Bool
  checkoutFails : Bool
  addFails : Bool
  commitFails : Bool
  pushFails : Bool
deriving DecidableEq, Repr

/-- The tail of one package's cycle: the list of actions attempted, in
source order, and whether the cycle completed.  An unguarded action appears
in the trace when attempted; if it fails, the cycle stops there. -/
def packageCycle (w : CycleWorld) : List PkgAct × Bool :=
  let t0 := [PkgAct.preRemoveAssets, PkgAct.preRemovePackage, PkgAct.downloadTarball]
  if w.downloadFails then (t0, false) else
  let t1 := t0 ++ [PkgAct.cloneAssets]
  if w.cloneFails then (t1, false) else
  let t2 := t1 ++ [PkgAct.extractTarball]
  if w.extractFails then (t2, false) else
  let t3 := t2 ++ [PkgAct.copyPackage]
  if w.copyFails then (t3, false) else
  let t4 := t3 ++ [PkgAct.checkoutBranch]
  if w.checkoutFails then (t4, false) else
  let t5 := t4 ++ [PkgAct.gitAdd]
  if w.addFails then (t5, false) else
  let t6 := t5 ++ [PkgAct.gitCommit]
  if w.commitFails then (t6, false) else
  let t7 := t6 ++ [PkgAct.gitPush]
  if w.pushFails then (t7, false) else
  (t7 ++ [PkgAct.removeTarball, PkgAct.removeAssets, PkgAct.removePackage], true)

/-- **C3, counterexample.**  With only the push failing, the cycle fails and
none of the three end-of-cycle cleanup removals is attempted: the claim that
cleanup is performed even when the downstream publish step (step 4) fails is
false on this code — the git steps are not wrapped in any `try`/`finally`. -/
theorem packageCycle_push_failure_skips_cleanup :
    (packageCycle ⟨false, false, false, false, false, false, false, true⟩).2 = false ∧
    PkgAct.gitPush ∈ (packageCycle ⟨false, false, false, false, false, false, false, true⟩).1 ∧
    PkgAct.removeTarball ∉
      (packageCycle ⟨false, false, false, false, false, false, false, true⟩).1 ∧
    PkgAct.removeAssets ∉
      (packageCycle ⟨false, false, false, false, false, false, false, true⟩).1 ∧
    PkgAct.removePackage ∉
      (packageCycle ⟨false, false, false, false, false, false, false, true⟩).1 := by
  decide

/-- **C3, amended.**  Every cycle begins with the two best-effort
pre-removals, and the end-of-cycle cleanup (tarball, cloned repository,
extracted `./package`) runs exactly when every unguarded step of the cycle
succeeds; any failure — in particular in the branch/commit/push step —
rejects immediately and skips the end-of-cycle cleanup. -/
theorem packageCycle_cleanup_iff_success (w : CycleWorld) :
    (packageCycle w).1.take 2 = [PkgAct.preRemoveAssets, PkgAct.preRemovePackage] ∧
    ([PkgAct.removeTarball, PkgAct.removeAssets, PkgAct.removePackage]
        <:+ (packageCycle w).1
      ↔ (packageCycle w).2 = true) := by
  obtain ⟨a, b, c, d, e, f, g, h⟩ := w
  cases a <;> cases b <;> cases c <;> cases d <;> cases e <;> cases f <;>
    cases g <;> cases h <;> decide

/-! ## Recursive copy utility

`copyRecursiveSync(src, dest)` works on the filesystem; the filesystem is
embedded as a rooted tree of directories (association lists of named
children, in directory-listing order) and files. -/

inductive FsNode where
  | file (contents : String)
  | dir (children : List (String × FsNode))

mutual

def beqFs : FsNode → FsNode → Bool
  | .file c, .file c2 => c == c2
  | .dir ch, .dir ch2 => beqFsL ch ch2
  | _, _ => false

def beqFsL : List (String × FsNode) → List (String × FsNode) → Bool
  | [], [] => true
  | c :: cs, c2 :: cs2 => c.1 == c2.1 && beqFs c.2 c2.2 && beqFsL cs cs2
  | _, _ => false

end

mutual

theorem beqFs_iff : ∀ a b : FsNode, beqFs a b = true ↔ a = b
  | .file c, .file c2 => by simp [beqFs]
  | .file c, .dir ch2 => by simp [beqFs]
  | .dir ch, .file c2 => by simp [beqFs]
  | .dir ch, .dir ch2 => by
    rw [beqFs, beqFsL_iff ch ch2]
    simp

theorem beqFsL_iff : ∀ a b : List (String × FsNode), beqFsL a b = true ↔ a = b
  | [], [] => by simp [beqFsL]
  | [], c2 :: cs2 => by simp [beqFsL]
  | c :: cs, [] => by simp [beqFsL]
  | c :: cs, c2 :: cs2 => by
    rw [beqFsL, Bool.and_eq_true, Bool.and_eq_true,
      beqFs_iff c.2 c2.2, beqFsL_iff cs cs2]
    constructor
    · rintro ⟨⟨h1, h2⟩, h3⟩
      subst h3
      have : c = c2 := Prod.ext (by simpa using h1) h2
      rw [this]
    · intro h
      injection h with h1 h2
      subst h2
      rw [h1]
      simp

end

instance : DecidableEq FsNode := fun a b => decidable_of_iff _ (beqFs_iff a b)

mutual

/-- Size of a filesystem tree (used as fuel for the copy recursion). -/
def fsSize : FsNode → Nat
  | .file _ => 1
  | .dir ch => 1 + fsSizeL ch

def fsSizeL : List (String × FsNode) → Nat
  | [] => 1
  | c :: cs => 1 + fsSize c.2 + fsSizeL cs

end

/-- The ways an embedded filesystem operation can fail (any Node error is
fatal for the copy since the recursion catches nothing). -/
inductive CpErr where
  | enoent
  | eexist
  | eisdir
  | fuel
deriving DecidableEq, Repr

/-- Lookup of a named child in a directory listing. -/
def lookupA : List (String × FsNode) → String → Option FsNode
  | [], _ => none
  | (k, v) :: rest, n => if k = n then some v else lookupA rest n

/-- Resolve a path (list of segments) from a node. -/
def lookupFs : FsNode → List String → Option FsNode
  | node, [] => some node
  | .file _, _ :: _ => none
  | .dir ch, seg :: rest =>
    match lookupA ch seg with
    | some sub => lookupFs sub rest
    | none => none

/-- Replace the first binding of `n` (keeping its position), else append. -/
def setAssoc : List (String × FsNode) → String → FsNode → List (String × FsNode)
  | [], n, v => [(n, v)]
  | (k, w) :: rest, n, v =>
    if k = n then (n, v) :: rest else (k, w) :: setAssoc rest n v

/-- `fs.mkdirSync(path, { recursive: true })`: create every missing
directory along the path; an existing directory is kept, a file anywhere on
the path is an error. -/
def mkdirRec : FsNode → List String → Except CpErr FsNode
  | .dir ch, [] => .ok (.dir ch)
  | .file _, _ => .error .eexist
  | .dir ch, n :: rest =>
    match lookupA ch n with
    | some sub =>
      match mkdirRec sub rest with
      | .ok sub2 => .ok (.dir (setAssoc ch n sub2))
      | .error e => .error e
    | none =>
      match mkdirRec (.dir []) rest with
      | .ok sub2 => .ok (.dir (ch ++ [(n, sub2)]))
      | .error e => .error e

/-- Write `contents` as a file at a path: the parent must exist and be a
directory; an existing destination file is overwritten, an existing
destination directory is an error (`copyFileSync` semantics). -/
def writeFileAt : FsNode → List String → String → Except CpErr FsNode
  | _, [], _ => .error .eisdir
  | .file _, _ :: _, _ => .error .enoent
  | .dir ch, [n], c =>
    match lookupA ch n with
    | some (.dir _) => .error .eisdir
    | _ => .ok (.dir (setAssoc ch n (.file c)))
  | .dir ch, n :: m :: rest, c =>
    match lookupA ch n with
    | some sub =>
      match writeFileAt sub (m :: rest) c with
      | .ok sub2 => .ok (.dir (setAssoc ch n sub2))
      | .error e => .error e
    | none => .error .enoent

/-- `fs.copyFileSync(src, dest)`: read the file at `src` (anything else is
an error) and write its bytes at `dest`. -/
def copyFile (fs : FsNode) (src dest : List String) : Except CpErr FsNode :=
  match lookupFs fs src with
  | some (.file c) => writeFileAt fs dest c
  | _ => .error .enoent

/-- The recursion of `copyRecursiveSync` over a worklist of
(source, destination) path pairs, depth first in source order: for a
directory source, `mkdirSync(dest, { recursive: true })`, then re-read the
source listing and copy every child before moving to the rest of the
worklist; for anything else, `copyFileSync`.  `fuel` makes the embedded
recursion total; one unit is consumed per worklist step. -/
def copyMany : Nat → FsNode → List (List String × List String) → Except CpErr FsNode
  | _, fs, [] => .ok fs
  | 0, _, _ :: _ => .error .fuel
  | fuel + 1, fs, (src, dest) :: rest =>
    let isDirectory : Bool :=
      match lookupFs fs src with
      | some (.dir _) => true
      | _ => false
    let step : Except CpErr FsNode :=
      if isDirectory then
        match mkdirRec fs dest with
        | .error e => .error e
        | .ok fs1 =>
          match lookupFs fs1 src with
          | some (.dir ch) =>
            copyMany fuel fs1 (ch.map (fun c => (src ++ [c.1], dest ++ [c.1])))
          | _ => .error .enoent
      else copyFile fs src dest
    match step with
    | .ok fs2 => copyMany fuel fs2 rest
    | .error e => .error e

/-- `copyRecursiveSync(src, dest)` on filesystem `fs`.  The fuel
`fsSize fs + 1` dominates the traversal of any source subtree of `fs` when
source and destination are disjoint (proved below). -/
def copyRecursiveSync (fs : FsNode) (src dest : List String) : Except CpErr FsNode :=
  copyMany (fsSize fs + 1) fs [(src, dest)]

/-- Pure description of a copy's effect: graft `v` at path `d`, creating
missing intermediate directories, replacing whatever was at `d`. -/
def setPathFs : FsNode → List String → FsNode → FsNode
  | _, [], v => v
  | .file c, _ :: _, _ => .file c
  | .dir ch, n :: rest, v =>
    match lookupA ch n with
    | some sub => .dir (setAssoc ch n (setPathFs sub rest v))
    | none => .dir (ch ++ [(n, setPathFs (.dir []) rest v)])

/-- Well-formed tree: every directory's child names are duplicate-free. -/
inductive WfTree : FsNode → Prop
  | file (c : String) : WfTree (.file c)
  | dir (ch : List (String × FsNode)) :
      (ch.map Prod.fst).Nodup → (∀ c ∈ ch, WfTree c.2) → WfTree (.dir ch)

/-- Decidable check for `WfTree`, fuelled. -/
def wfAux : Nat → FsNode → Bool
  | _, .file _ => true
  | 0, .dir _ => false
  | fuel + 1, .dir ch =>
    decide ((ch.map Prod.fst).Nodup) && ch.all (fun c => wfAux fuel c.2)

theorem wfTree_of_aux : ∀ fuel t, wfAux fuel t = true → WfTree t := by
  intro fuel
  induction fuel with
  | zero =>
    intro t h
    cases t with
    | file c => exact WfTree.file c
    | dir ch => simp [wfAux] at h
  | succ fuel ih =>
    intro t h
    cases t with
    | file c => exact WfTree.file c
    | dir ch =>
      rw [wfAux, Bool.and_eq_true] at h
      refine WfTree.dir ch (of_decide_eq_true h.1) ?_
      intro c hc
      exact ih c.2 (List.all_eq_true.1 h.2 c hc)

/-- Neither path is a prefix of the other. -/
def pathDisjoint (p q : List String) : Prop := ¬ p <+: q ∧ ¬ q <+: p

theorem lookupA_setAssoc_self (ch : List (String × FsNode)) (n : String) (v : FsNode) :
    lookupA (setAssoc ch n v) n = some v := by
  induction ch with
  | nil => simp [setAssoc, lookupA]
  | cons c rest ih =>
    by_cases h : c.1 = n
    · simp [setAssoc, h, lookupA]
    · obtain ⟨k, w⟩ := c
      simp only at h
      simp [setAssoc, h, lookupA, ih]

theorem lookupA_setAssoc_ne (ch : List (String × FsNode)) (n : String) (v : FsNode)
    (m : String) (h : m ≠ n) : lookupA (setAssoc ch n v) m = lookupA ch m := by
  induction ch with
  | nil =>
    simp only [setAssoc, lookupA]
    rw [if_neg (fun he : n = m => h he.symm)]
  | cons c rest ih =>
    obtain ⟨k, w⟩ := c
    by_cases hk : k = n
    · subst hk
      have hkm : ¬ k = m := fun he => h he.symm
      simp only [setAssoc, if_pos rfl, lookupA]
      rw [if_neg hkm, if_neg hkm]
    · simp only [setAssoc, if_neg hk, lookupA]
      by_cases hm : k = m
      · simp [hm]
      · simp [hm, ih]

theorem setAssoc_of_none (ch : List (String × FsNode)) (n : String) (v : FsNode)
    (h : lookupA ch n = none) : setAssoc ch n v = ch ++ [(n, v)] := by
  induction ch with
  | nil => simp [setAssoc]
  | cons c rest ih =>
    obtain ⟨k, w⟩ := c
    by_cases hk : k = n
    · simp [lookupA, hk] at h
    · simp only [lookupA, if_neg hk] at h
      simp [setAssoc, hk, ih h]

theorem lookupA_of_nodup_mem {ch : List (String × FsNode)}
    (hnd : (ch.map Prod.fst).Nodup) {c : String × FsNode} (hc : c ∈ ch) :
    lookupA ch c.1 = some c.2 := by
  induction ch with
  | nil => simp at hc
  | cons c0 rest ih =>
    rw [List.map_cons, List.nodup_cons] at hnd
    rcases List.mem_cons.1 hc with hc | hc
    · subst hc
      simp [lookupA]
    · have hne : c0.1 ≠ c.1 := by
        intro he
        exact hnd.1 (he ▸ List.mem_map.2 ⟨c, hc, rfl⟩)
      simp only [lookupA, if_neg hne]
      exact ih hnd.2 hc

theorem lookupFs_append (fs : FsNode) (p q : List String) :
    lookupFs fs (p ++ q) = (lookupFs fs p).bind (fun t => lookupFs t q) := by
  induction p generalizing fs with
  | nil => simp [lookupFs]
  | cons seg rest ih =>
    cases fs with
    | file c => simp [lookupFs]
    | dir ch =>
      rw [List.cons_append, lookupFs, lookupFs]
      cases hA : lookupA ch seg with
      | some sub =>
        dsimp only
        exact ih sub
      | none => rfl

theorem pathDisjoint_symm {p q : List String} (h : pathDisjoint p q) :
    pathDisjoint q p := ⟨h.2, h.1⟩

theorem prefix_snoc_cases {p q : List String} {y : String} (h : p <+: q ++ [y]) :
    p <+: q ∨ p = q ++ [y] := by
  rcases Nat.lt_or_ge p.length (q ++ [y]).length with hl | hl
  · left
    refine List.prefix_of_prefix_length_le h (List.prefix_append q [y]) ?_
    simp at hl ⊢
    omega
  · right
    exact List.IsPrefix.eq_of_length h (le_antisymm h.length_le hl)

theorem pathDisjoint_snoc {p q : List String} (h : pathDisjoint p q) (x y : String) :
    pathDisjoint (p ++ [x]) (q ++ [y]) := by
  constructor
  · intro hc
    rcases prefix_snoc_cases hc with hc | hc
    · exact h.1 (((List.prefix_append p [x]).trans hc))
    · have : q <+: p ++ [x] := hc ▸ List.prefix_append q [y]
      rcases prefix_snoc_cases this with hc2 | hc2
      · exact h.2 hc2
      · exact h.1 (hc2.symm ▸ List.prefix_append p [x])
  · intro hc
    rcases prefix_snoc_cases hc with hc | hc
    · exact h.2 (((List.prefix_append q [y]).trans hc))
    · have : p <+: q ++ [y] := hc ▸ List.prefix_append p [x]
      rcases prefix_snoc_cases this with hc2 | hc2
      · exact h.1 hc2
      · exact h.2 (hc2.symm ▸ List.prefix_append q [y])

theorem pathDisjoint_snoc_ne (p : List String) {x y : String} (h : x ≠ y) :
    pathDisjoint (p ++ [x]) (p ++ [y]) := by
  constructor
  · intro hc
    have := List.IsPrefix.eq_of_length hc (by simp)
    have := List.append_inj_right this rfl
    simp at this
    exact h this
  · intro hc
    have := List.IsPrefix.eq_of_length hc (by simp)
    have := List.append_inj_right this rfl
    simp at this
    exact h this.symm

theorem prefix_of_append_left {p q r : List String} (h : p ++ q <+: r) : p <+: r :=
  (List.prefix_append p q).trans h

theorem lookupA_append_self (ch : List (String × FsNode)) (n : String) (v : FsNode)
    (h : lookupA ch n = none) : lookupA (ch ++ [(n, v)]) n = some v := by
  induction ch with
  | nil => simp [lookupA]
  | cons c rest ih =>
    obtain ⟨k, w⟩ := c
    by_cases hk : k = n
    · simp [lookupA, hk] at h
    · simp only [lookupA, if_neg hk] at h
      simp only [List.cons_append, lookupA, if_neg hk]
      exact ih h

theorem lookupA_append_ne (ch : List (String × FsNode)) (n : String) (v : FsNode)
    (m : String) (h : m ≠ n) : lookupA (ch ++ [(n, v)]) m = lookupA ch m := by
  induction ch with
  | nil =>
    simp only [List.nil_append, lookupA]
    rw [if_neg (fun he : n = m => h he.symm)]
  | cons c rest ih =>
    obtain ⟨k, w⟩ := c
    simp only [List.cons_append, lookupA]
    by_cases hk : k = m
    · simp [hk]
    · simp [hk, ih]

theorem setAssoc_setAssoc (ch : List (String × FsNode)) (n : String) (v w : FsNode) :
    setAssoc (setAssoc ch n v) n w = setAssoc ch n w := by
  induction ch with
  | nil => simp [setAssoc]
  | cons c rest ih =>
    obtain ⟨k, u⟩ := c
    by_cases hk : k = n
    · simp [setAssoc, hk]
    · simp [setAssoc, hk, ih]

theorem setAssoc_append (ch : List (String × FsNode)) (n : String) (w v : FsNode)
    (h : lookupA ch n = none) : setAssoc (ch ++ [(n, w)]) n v = ch ++ [(n, v)] := by
  induction ch with
  | nil => simp [setAssoc]
  | cons c rest ih =>
    obtain ⟨k, u⟩ := c
    by_cases hk : k = n
    · simp [lookupA, hk] at h
    · simp only [lookupA, if_neg hk] at h
      simp [setAssoc, hk, ih h]

/-- No file stands on a strict prefix of `d` in `fs`. -/
def chainFree (fs : FsNode) (d : List String) : Prop :=
  ∀ p, p <+: d → p ≠ d → ∀ c, lookupFs fs p ≠ some (.file c)

theorem chainFree_dir_nil (d : List String) : chainFree (.dir []) d := by
  intro p hp hpd c hc
  cases p with
  | nil => simp [lookupFs] at hc
  | cons m rest => simp [lookupFs, lookupA] at hc

theorem chainFree_child {ch : List (String × FsNode)} {sub : FsNode} {n : String}
    {rest : List String} (hA : lookupA ch n = some sub)
    (h : chainFree (.dir ch) (n :: rest)) : chainFree sub rest := by
  intro p hp hpd c hc
  refine h (n :: p) (List.cons_prefix_cons.2 ⟨rfl, hp⟩) (by simp [hpd]) c ?_
  rw [lookupFs, hA]
  exact hc

theorem lookupFs_setPathFs_self (v : FsNode) :
    ∀ d fs, chainFree fs d → lookupFs (setPathFs fs d v) d = some v := by
  intro d
  induction d with
  | nil => intro fs hcf; cases fs <;> cases v <;> rfl
  | cons n rest ih =>
    intro fs hcf
    cases fs with
    | file c =>
      exact absurd rfl (hcf [] (by simp) (by simp) c)
    | dir ch =>
      rw [setPathFs]
      cases hA : lookupA ch n with
      | some sub =>
        dsimp only
        rw [lookupFs, lookupA_setAssoc_self]
        exact ih sub (chainFree_child hA hcf)
      | none =>
        dsimp only
        rw [lookupFs, lookupA_append_self ch n _ hA]
        exact ih (.dir []) (chainFree_dir_nil rest)

theorem lookupFs_setPathFs_outside (v : FsNode) :
    ∀ d q fs, ¬ d <+: q → ¬ q <+: d →
      lookupFs (setPathFs fs d v) q = lookupFs fs q := by
  intro d
  induction d with
  | nil => intro q fs h1 h2; exact absurd List.nil_prefix h1
  | cons n rest ih =>
    intro q fs h1 h2
    cases fs with
    | file c => rfl
    | dir ch =>
      cases q with
      | nil => exact absurd List.nil_prefix h2
      | cons m q2 =>
        by_cases hm : m = n
        · subst hm
          have h1r : ¬ rest <+: q2 :=
            fun hc => h1 (List.cons_prefix_cons.2 ⟨rfl, hc⟩)
          have h2r : ¬ q2 <+: rest :=
            fun hc => h2 (List.cons_prefix_cons.2 ⟨rfl, hc⟩)
          rw [setPathFs]
          cases hA : lookupA ch m with
          | some sub =>
            dsimp only
            rw [lookupFs, lookupA_setAssoc_self]
            dsimp only
            rw [lookupFs, hA]
            exact ih q2 sub h1r h2r
          | none =>
            dsimp only
            rw [lookupFs, lookupA_append_self ch m _ hA]
            dsimp only
            rw [ih q2 (.dir []) h1r h2r]
            have hrhs : lookupFs (.dir ch) (m :: q2) = none := by
              rw [lookupFs, hA]
            rw [hrhs]
            cases q2 with
            | nil => exact absurd (List.cons_prefix_cons.2 ⟨rfl, List.nil_prefix⟩) h2
            | cons m2 q3 => rfl
        · rw [setPathFs]
          cases hA : lookupA ch n with
          | some sub =>
            dsimp only
            rw [lookupFs, lookupA_setAssoc_ne ch n _ m hm, lookupFs]
          | none =>
            dsimp only
            rw [lookupFs, lookupA_append_ne ch n _ m hm, lookupFs]

theorem lookupFs_setPathFs_prefix_dir (v : FsNode) :
    ∀ d q fs, q <+: d → q ≠ d → chainFree fs d →
      ∃ ch2, lookupFs (setPathFs fs d v) q = some (.dir ch2) := by
  intro d
  induction d with
  | nil =>
    intro q fs hq hqd hcf
    exact absurd (List.prefix_nil.1 hq) hqd
  | cons n rest ih =>
    intro q fs hq hqd hcf
    cases fs with
    | file c => exact absurd rfl (hcf [] (by simp) (by simp) c)
    | dir ch =>
      cases q with
      | nil =>
        rw [setPathFs]
        cases hA : lookupA ch n with
        | some sub => exact ⟨_, rfl⟩
        | none => exact ⟨_, rfl⟩
      | cons m q2 =>
        obtain ⟨hm, hq2⟩ := List.cons_prefix_cons.1 hq
        subst hm
        have hq2d : q2 ≠ rest := fun hc => hqd (by rw [hc])
        rw [setPathFs]
        cases hA : lookupA ch m with
        | some sub =>
          dsimp only
          rw [lookupFs, lookupA_setAssoc_self]
          exact ih q2 sub hq2 hq2d (chainFree_child hA hcf)
        | none =>
          dsimp only
          rw [lookupFs, lookupA_append_self ch m _ hA]
          exact ih q2 (.dir []) hq2 hq2d (chainFree_dir_nil rest)

theorem setPathFs_snoc_child (v : FsNode) (n : String) (acc : List (String × FsNode)) :
    ∀ d fs, setPathFs (setPathFs fs d (.dir acc)) (d ++ [n]) v
      = setPathFs fs d (.dir (setAssoc acc n v)) := by
  intro d
  induction d with
  | nil =>
    intro fs
    rw [List.nil_append, setPathFs, setPathFs, setPathFs]
    cases hA : lookupA acc n with
    | some sub =>
      dsimp only
      rw [setPathFs]
    | none =>
      dsimp only
      rw [setPathFs, setAssoc_of_none acc n v hA]
  | cons m rest ih =>
    intro fs
    cases fs with
    | file c => rw [List.cons_append, setPathFs, setPathFs, setPathFs]
    | dir ch =>
      rw [List.cons_append, setPathFs, setPathFs]
      cases hA : lookupA ch m with
      | some sub =>
        dsimp only
        rw [setPathFs, lookupA_setAssoc_self]
        dsimp only
        rw [setAssoc_setAssoc, ih sub]
      | none =>
        dsimp only
        rw [setPathFs, lookupA_append_self ch m _ hA]
        dsimp only
        rw [setAssoc_append ch m _ _ hA, ih (.dir [])]

theorem mkdirRec_ok :
    ∀ d fs, (∀ p, p <+: d → ∀ c, lookupFs fs p ≠ some (.file c)) →
      ∃ fs2, mkdirRec fs d = .ok fs2 := by
  intro d
  induction d with
  | nil =>
    intro fs h
    cases fs with
    | file c => exact absurd rfl (h [] (by simp) c)
    | dir ch => exact ⟨.dir ch, rfl⟩
  | cons n rest ih =>
    intro fs h
    cases fs with
    | file c => exact absurd rfl (h [] (by simp) c)
    | dir ch =>
      rw [mkdirRec]
      cases hA : lookupA ch n with
      | some sub =>
        obtain ⟨fs2, h2⟩ := ih sub (by
          intro p hp c hc
          refine h (n :: p) (List.cons_prefix_cons.2 ⟨rfl, hp⟩) c ?_
          rw [lookupFs, hA]
          exact hc)
        dsimp only
        rw [h2]
        exact ⟨_, rfl⟩
      | none =>
        obtain ⟨fs2, h2⟩ := ih (.dir []) (by
          intro p hp c hc
          cases p with
          | nil => simp [lookupFs] at hc
          | cons a b => simp [lookupFs, lookupA] at hc)
        dsimp only
        rw [h2]
        exact ⟨_, rfl⟩

theorem mkdirRec_fresh_eq :
    ∀ d fs fs2, mkdirRec fs d = .ok fs2 → lookupFs fs d = none →
      fs2 = setPathFs fs d (.dir []) := by
  intro d
  induction d with
  | nil =>
    intro fs fs2 hok hfresh
    simp [lookupFs] at hfresh
  | cons n rest ih =>
    intro fs fs2 hok hfresh
    cases fs with
    | file c => simp [mkdirRec] at hok
    | dir ch =>
      rw [mkdirRec] at hok
      rw [lookupFs] at hfresh
      rw [setPathFs]
      cases hA : lookupA ch n with
      | some sub =>
        rw [hA] at hok hfresh
        dsimp only at hok
        cases hrec : mkdirRec sub rest with
        | ok sub2 =>
          rw [hrec] at hok
          dsimp only at hok
          cases hok
          rw [ih sub sub2 hrec hfresh]
        | error e => rw [hrec] at hok; cases hok
      | none =>
        rw [hA] at hok
        dsimp only at hok
        cases hrec : mkdirRec (.dir []) rest with
        | ok sub2 =>
          rw [hrec] at hok
          dsimp only at hok
          cases hok
          cases rest with
          | nil =>
            cases hrec
            rfl
          | cons m rs =>
            rw [ih (.dir []) sub2 hrec (by simp [lookupFs, lookupA])]
        | error e => rw [hrec] at hok; cases hok

theorem writeFileAt_ok_eq (c : String) :
    ∀ d fs, d ≠ [] →
      (∃ chp, lookupFs fs d.dropLast = some (.dir chp)) →
      (∀ ch0, lookupFs fs d ≠ some (.dir ch0)) →
      writeFileAt fs d c = .ok (setPathFs fs d (.file c)) := by
  intro d
  induction d with
  | nil => intro fs hne; exact absurd rfl hne
  | cons n rest ih =>
    intro fs hne hparent hnotdir
    cases fs with
    | file c0 =>
      obtain ⟨chp, hp⟩ := hparent
      cases rest with
      | nil => simp [lookupFs] at hp
      | cons m rs => simp [List.dropLast_cons₂, lookupFs] at hp
    | dir ch =>
      cases rest with
      | nil =>
        rw [writeFileAt, setPathFs]
        cases hA : lookupA ch n with
        | some sub =>
          cases sub with
          | file c1 =>
            dsimp only
            rw [setPathFs]
          | dir ch1 =>
            exfalso
            refine hnotdir ch1 ?_
            rw [lookupFs, hA]
            rfl
        | none =>
          dsimp only
          rw [setPathFs, setAssoc_of_none ch n _ hA]
      | cons m rs =>
        rw [writeFileAt]
        obtain ⟨chp, hp⟩ := hparent
        rw [List.dropLast_cons₂, lookupFs] at hp
        cases hA : lookupA ch n with
        | none => rw [hA] at hp; cases hp
        | some sub =>
          rw [hA] at hp
          have hrec := ih sub (by simp)
            ⟨chp, hp⟩
            (by
              intro ch0 hc
              refine hnotdir ch0 ?_
              rw [lookupFs, hA]
              exact hc)
          dsimp only
          rw [hrec]
          dsimp only
          rw [setPathFs, hA]

theorem fsSize_pos : ∀ t : FsNode, 0 < fsSize t := by
  intro t
  cases t with
  | file c => rw [fsSize]; omega
  | dir ch => rw [fsSize]; omega

theorem fsSizeL_children_lt (ch : List (String × FsNode)) :
    (ch.map (fun c => fsSize c.2)).sum < fsSizeL ch := by
  induction ch with
  | nil => rw [fsSizeL]; simp
  | cons c cs ih =>
    rw [fsSizeL]
    simp only [List.map_cons, List.sum_cons]
    omega

theorem lookupA_some_mem {ch : List (String × FsNode)} {n : String} {v : FsNode}
    (h : lookupA ch n = some v) : (n, v) ∈ ch := by
  induction ch with
  | nil => simp [lookupA] at h
  | cons c rest ih =>
    obtain ⟨k, w⟩ := c
    by_cases hk : k = n
    · subst hk
      simp [lookupA] at h
      simp [h]
    · simp only [lookupA, if_neg hk] at h
      exact List.mem_cons_of_mem _ (ih h)

theorem fsSize_mem_le {ch : List (String × FsNode)} {c : String × FsNode}
    (h : c ∈ ch) : fsSize c.2 ≤ fsSizeL ch := by
  induction ch with
  | nil => simp at h
  | cons c0 cs ih =>
    rw [fsSizeL]
    rcases List.mem_cons.1 h with h | h
    · rw [h]; omega
    · have := ih h; omega

theorem lookupFs_fsSize_le :
    ∀ (p : List String) (fs t : FsNode), lookupFs fs p = some t → fsSize t ≤ fsSize fs := by
  intro p
  induction p with
  | nil =>
    intro fs t h
    cases fs <;> (rw [lookupFs] at h; cases h; exact le_refl _)
  | cons n rest ih =>
    intro fs t h
    cases fs with
    | file c => rw [lookupFs] at h; cases h
    | dir ch =>
      rw [lookupFs] at h
      cases hA : lookupA ch n with
      | none => rw [hA] at h; cases h
      | some sub =>
        rw [hA] at h
        have h1 := ih sub t h
        have h2 := fsSize_mem_le (lookupA_some_mem hA)
        rw [fsSize]
        dsimp only at h2
        omega

theorem wfTree_dir_nodup {ch : List (String × FsNode)} (h : WfTree (.dir ch)) :
    (ch.map Prod.fst).Nodup := by
  cases h with
  | dir ch hnd hall => exact hnd

theorem wfTree_dir_children {ch : List (String × FsNode)} (h : WfTree (.dir ch)) :
    ∀ c ∈ ch, WfTree c.2 := by
  cases h with
  | dir ch hnd hall => exact hall

theorem pathDisjoint_snoc_right {p q : List String} (h : pathDisjoint p q) (x : String) :
    pathDisjoint p (q ++ [x]) := by
  constructor
  · intro hc
    rcases prefix_snoc_cases hc with hc | hc
    · exact h.1 hc
    · exact h.2 (hc ▸ List.prefix_append q [x])
  · intro hc
    exact h.2 (prefix_of_append_left hc)

theorem fresh_ne_nil {fs : FsNode} {d : List String} (h : lookupFs fs d = none) :
    d ≠ [] := by
  intro hc
  subst hc
  cases fs <;> simp [lookupFs] at h

theorem lookupFs_dir_single (ch : List (String × FsNode)) (x : String) :
    lookupFs (.dir ch) [x] = lookupA ch x := by
  rw [lookupFs]
  cases hA : lookupA ch x with
  | some sub => cases sub <;> rfl
  | none => rfl

theorem copyMany_nil (fuel : Nat) (fs : FsNode) : copyMany fuel fs [] = .ok fs := by
  cases fuel <;> rfl

/-- Writing at `d` preserves "no file on any prefix of `q`" for paths `q`
that `d` does not dominate. -/
theorem chain_no_file_transport (fs : FsNode) (d : List String) (v : FsNode)
    (q : List String)
    (hchain_d : ∀ p, p <+: d → ∀ c, lookupFs fs p ≠ some (.file c))
    (hchain_q : ∀ p, p <+: q → ∀ c, lookupFs fs p ≠ some (.file c))
    (hdq : ¬ d <+: q) :
    ∀ p, p <+: q → ∀ c, lookupFs (setPathFs fs d v) p ≠ some (.file c) := by
  intro p hp c hc
  by_cases h1 : d <+: p
  · exact hdq (h1.trans hp)
  · by_cases h2 : p <+: d
    · rcases eq_or_ne p d with rfl | hne
      · exact hdq hp
      · obtain ⟨ch2, hd2⟩ := lookupFs_setPathFs_prefix_dir v d p fs h2 hne
          (fun p2 hp2 hne2 c2 => hchain_d p2 hp2 c2)
        rw [hd2] at hc
        cases hc
    · rw [lookupFs_setPathFs_outside v d p fs h1 h2] at hc
      exact hchain_q p hp c hc

/-- Writing at `d` keeps a directory at any path `pj ≠ d` not under `d`. -/
theorem parent_dir_transport (fs : FsNode) (d : List String) (v : FsNode)
    (pj : List String)
    (hchain_d : ∀ p, p <+: d → ∀ c, lookupFs fs p ≠ some (.file c))
    (hp : ∃ chp, lookupFs fs pj = some (.dir chp))
    (hnd : ¬ d <+: pj) (hned : pj ≠ d) :
    ∃ chp, lookupFs (setPathFs fs d v) pj = some (.dir chp) := by
  by_cases h2 : pj <+: d
  · exact lookupFs_setPathFs_prefix_dir v d pj fs h2 hned
      (fun p2 hp2 hne2 c2 => hchain_d p2 hp2 c2)
  · obtain ⟨chp, hchp⟩ := hp
    exact ⟨chp, by rw [lookupFs_setPathFs_outside v d pj fs hnd h2]; exact hchp⟩

/-- Folding the copies of a directory's children over the freshly created
destination directory grafts exactly the children list. -/
theorem foldl_children_collapse (s d : List String) :
    ∀ (cs : List (String × FsNode)) (acc : List (String × FsNode)) (fs : FsNode),
      (∀ c ∈ cs, lookupA acc c.1 = none) →
      (cs.map Prod.fst).Nodup →
      (cs.map (fun c => ((s ++ [c.1], d ++ [c.1]), c.2))).foldl
          (fun a e => setPathFs a e.1.2 e.2) (setPathFs fs d (.dir acc))
        = setPathFs fs d (.dir (acc ++ cs)) := by
  intro cs
  induction cs with
  | nil =>
    intro acc fs hfr hnd
    simp
  | cons c cs2 ih =>
    intro acc fs hfr hnd
    rw [List.map_cons, List.foldl_cons]
    dsimp only
    rw [setPathFs_snoc_child c.2 c.1 acc d fs,
      setAssoc_of_none acc c.1 c.2 (hfr c (List.mem_cons_self _ _))]
    rw [List.map_cons, List.nodup_cons] at hnd
    have hfr2 : ∀ c2 ∈ cs2, lookupA (acc ++ [(c.1, c.2)]) c2.1 = none := by
      intro c2 hc2
      have hne : c2.1 ≠ c.1 := by
        intro he
        exact hnd.1 (he ▸ List.mem_map.2 ⟨c2, hc2, rfl⟩)
      rw [lookupA_append_ne acc c.1 c.2 c2.1 hne]
      exact hfr c2 (List.mem_cons_of_mem _ hc2)
    rw [ih (acc ++ [(c.1, c.2)]) fs hfr2 hnd.2]
    rw [List.append_assoc]
    rfl

/-- Master specification of the copy recursion over a worklist of
(source, destination, source-subtree) triples: under freshness,
well-formedness and disjointness the run succeeds and its total effect is
the fold of `setPathFs` grafts of the source subtrees. -/
theorem copyMany_spec :
    ∀ fuel (ps : List ((List String × List String) × FsNode)) (fs : FsNode),
      (∀ e ∈ ps, lookupFs fs e.1.1 = some e.2) →
      (∀ e ∈ ps, WfTree e.2) →
      (ps.map (fun e => fsSize e.2)).sum ≤ fuel →
      (∀ e ∈ ps, lookupFs fs e.1.2 = none) →
      (∀ e ∈ ps, ∀ p, p <+: e.1.2 → ∀ c, lookupFs fs p ≠ some (.file c)) →
      (∀ e ∈ ps, ∀ c, e.2 = FsNode.file c →
        ∃ chp, lookupFs fs e.1.2.dropLast = some (.dir chp)) →
      (∀ e ∈ ps, ∀ e2 ∈ ps, pathDisjoint e.1.2 e2.1.1) →
      ps.Pairwise (fun e e2 => pathDisjoint e.1.2 e2.1.2) →
      copyMany fuel fs (ps.map (fun e => e.1))
        = .ok (ps.foldl (fun a e => setPathFs a e.1.2 e.2) fs) := by
  intro fuel
  induction fuel with
  | zero =>
    intro ps fs h1 h2 h3 h4 h5 h6 h7 h8
    cases ps with
    | nil => simp [copyMany_nil]
    | cons e rest =>
      exfalso
      have := fsSize_pos e.2
      simp only [List.map_cons, List.sum_cons] at h3
      omega
  | succ fuel ih =>
    intro ps fs h1 h2 h3 h4 h5 h6 h7 h8
    cases ps with
    | nil => simp [copyMany_nil]
    | cons e rest =>
      obtain ⟨⟨s, d⟩, t⟩ := e
      have hsrc : lookupFs fs s = some t := h1 _ (List.mem_cons_self _ _)
      have hwft : WfTree t := h2 _ (List.mem_cons_self _ _)
      have hfresh : lookupFs fs d = none := h4 _ (List.mem_cons_self _ _)
      have hchain : ∀ p, p <+: d → ∀ c, lookupFs fs p ≠ some (.file c) :=
        h5 _ (List.mem_cons_self _ _)
      have hds : pathDisjoint d s :=
        h7 _ (List.mem_cons_self _ _) _ (List.mem_cons_self _ _)
      obtain ⟨hd8, h8r⟩ := List.pairwise_cons.1 h8
      have hsize : fsSize t + (rest.map (fun e => fsSize e.2)).sum ≤ fuel + 1 := by
        simpa using h3
      have htpos := fsSize_pos t
      have hrestcall :
          copyMany fuel (setPathFs fs d t) (rest.map (fun e => e.1))
            = .ok (rest.foldl (fun a e => setPathFs a e.1.2 e.2) (setPathFs fs d t)) := by
        refine ih rest (setPathFs fs d t) ?_ ?_ ?_ ?_ ?_ ?_ ?_ h8r
        · intro e2 he2
          have hdisj := h7 _ (List.mem_cons_self _ _) e2 (List.mem_cons_of_mem _ he2)
          rw [lookupFs_setPathFs_outside t d e2.1.1 fs hdisj.1 hdisj.2]
          exact h1 e2 (List.mem_cons_of_mem _ he2)
        · intro e2 he2
          exact h2 e2 (List.mem_cons_of_mem _ he2)
        · omega
        · intro e2 he2
          have hdisj := hd8 e2 he2
          rw [lookupFs_setPathFs_outside t d e2.1.2 fs hdisj.1 hdisj.2]
          exact h4 e2 (List.mem_cons_of_mem _ he2)
        · intro e2 he2
          exact chain_no_file_transport fs d t e2.1.2 hchain
            (h5 e2 (List.mem_cons_of_mem _ he2)) (hd8 e2 he2).1
        · intro e2 he2 c hc
          refine parent_dir_transport fs d t e2.1.2.dropLast hchain
            (h6 e2 (List.mem_cons_of_mem _ he2) c hc) ?_ ?_
          · intro hcon
            exact (hd8 e2 he2).1 (hcon.trans (List.dropLast_prefix _))
          · intro hcon
            exact (hd8 e2 he2).1 (hcon ▸ List.dropLast_prefix _)
        · intro e2 he2 e3 he3
          exact h7 e2 (List.mem_cons_of_mem _ he2) e3 (List.mem_cons_of_mem _ he3)
      rw [List.map_cons, copyMany, hsrc]
      cases t with
      | file c =>
        dsimp only
        rw [copyFile, hsrc]
        dsimp only
        have hw := writeFileAt_ok_eq c d fs (fresh_ne_nil hfresh)
          (h6 _ (List.mem_cons_self _ _) c rfl)
          (fun ch0 hc => by rw [hfresh] at hc; cases hc)
        rw [hw]
        rw [List.foldl_cons]
        exact hrestcall
      | dir ch =>
        dsimp only
        obtain ⟨fs1, hmk⟩ := mkdirRec_ok d fs hchain
        have hfs1 : fs1 = setPathFs fs d (.dir []) := mkdirRec_fresh_eq d fs fs1 hmk hfresh
        rw [hmk]
        dsimp only
        have hread : lookupFs fs1 s = some (.dir ch) := by
          rw [hfs1, lookupFs_setPathFs_outside _ d s fs hds.1 hds.2]
          exact hsrc
        rw [hread]
        dsimp only
        have hnd_ch := wfTree_dir_nodup hwft
        have hch := wfTree_dir_children hwft
        have hcf : chainFree fs d := fun p hp hne c2 => hchain p hp c2
        have hfs1d : lookupFs fs1 d = some (.dir []) := by
          rw [hfs1]
          exact lookupFs_setPathFs_self _ d fs hcf
        have hmap :
            (ch.map (fun c => ((s ++ [c.1], d ++ [c.1]), c.2))).map (fun e => e.1)
              = ch.map (fun c => (s ++ [c.1], d ++ [c.1])) := by
          rw [List.map_map]
          rfl
        rw [← hmap]
        have hchildren := ih (ch.map (fun c => ((s ++ [c.1], d ++ [c.1]), c.2))) fs1
          (by
            intro e2 he2
            obtain ⟨c, hc, rfl⟩ := List.mem_map.1 he2
            dsimp only
            have hdisj : pathDisjoint d (s ++ [c.1]) := pathDisjoint_snoc_right hds c.1
            rw [hfs1, lookupFs_setPathFs_outside _ d _ fs hdisj.1 hdisj.2,
              lookupFs_append fs s [c.1], hsrc]
            dsimp only [Option.bind]
            rw [lookupFs_dir_single ch c.1]
            exact lookupA_of_nodup_mem hnd_ch hc)
          (by
            intro e2 he2
            obtain ⟨c, hc, rfl⟩ := List.mem_map.1 he2
            exact hch c hc)
          (by
            rw [List.map_map]
            have hlt := fsSizeL_children_lt ch
            have : fsSize (FsNode.dir ch) = 1 + fsSizeL ch := by rw [fsSize]
            have hsum :
                (ch.map (fun c => fsSize c.2)).sum
                  = (ch.map ((fun e : (List String × List String) × FsNode =>
                      fsSize e.2) ∘ (fun c => ((s ++ [c.1], d ++ [c.1]), c.2)))).sum := by
              rfl
            rw [← hsum]
            omega)
          (by
            intro e2 he2
            obtain ⟨c, hc, rfl⟩ := List.mem_map.1 he2
            dsimp only
            rw [lookupFs_append fs1 d [c.1], hfs1d]
            dsimp only [Option.bind]
            rw [lookupFs_dir_single [] c.1]
            rfl)
          (by
            intro e2 he2
            obtain ⟨c, hc, rfl⟩ := List.mem_map.1 he2
            dsimp only
            intro p hp c2 hc2
            rcases prefix_snoc_cases hp with hp | hp
            · rcases eq_or_ne p d with rfl | hne
              · rw [hfs1d] at hc2
                cases hc2
              · obtain ⟨ch2, hd2⟩ :=
                  lookupFs_setPathFs_prefix_dir (FsNode.dir []) d p fs hp hne hcf
                rw [hfs1] at hc2
                rw [hd2] at hc2
                cases hc2
            · subst hp
              rw [lookupFs_append fs1 d [c.1], hfs1d] at hc2
              dsimp only [Option.bind] at hc2
              rw [lookupFs_dir_single [] c.1] at hc2
              cases hc2)
          (by
            intro e2 he2 c0 hc0
            obtain ⟨c, hc, rfl⟩ := List.mem_map.1 he2
            dsimp only
            rw [List.dropLast_concat]
            exact ⟨[], hfs1d⟩)
          (by
            intro e2 he2 e3 he3
            obtain ⟨c, hc, rfl⟩ := List.mem_map.1 he2
            obtain ⟨c2, hc2, rfl⟩ := List.mem_map.1 he3
            exact pathDisjoint_snoc hds c.1 c2.1)
          (by
            rw [List.pairwise_map]
            have hpw : ch.Pairwise (fun a b => a.1 ≠ b.1) := List.pairwise_map.1 hnd_ch
            exact hpw.imp (fun hne => pathDisjoint_snoc_ne d hne))
        rw [hchildren]
        have hcollapse :
            (ch.map (fun c => ((s ++ [c.1], d ++ [c.1]), c.2))).foldl
                (fun a e => setPathFs a e.1.2 e.2) fs1
              = setPathFs fs d (.dir ch) := by
          rw [hfs1, foldl_children_collapse s d ch [] fs (fun c hc => rfl) hnd_ch]
          rfl
        rw [hcollapse]
        rw [List.foldl_cons]
        exact hrestcall

theorem lookupFs_some_parent_dir {fs : FsNode} {d : List String} {v : FsNode}
    (hne : d ≠ []) (h : lookupFs fs d = some v) :
    ∃ chp, lookupFs fs d.dropLast = some (.dir chp) := by
  have hsplit : d.dropLast ++ [d.getLast hne] = d := List.dropLast_append_getLast hne
  rw [← hsplit, lookupFs_append] at h
  cases hpar : lookupFs fs d.dropLast with
  | none => rw [hpar] at h; cases h
  | some node =>
    rw [hpar] at h
    dsimp only [Option.bind] at h
    cases node with
    | file c =>
      rw [lookupFs] at h
      cases h
    | dir chp => exact ⟨chp, rfl⟩

theorem lookupFs_some_chainFree {fs : FsNode} {d : List String} {v : FsNode}
    (h : lookupFs fs d = some v) :
    ∀ p, p <+: d → p ≠ d → ∀ c, lookupFs fs p ≠ some (.file c) := by
  intro p hp hne c hc
  obtain ⟨r, rfl⟩ := hp
  cases r with
  | nil => simp at hne
  | cons x rs =>
    rw [lookupFs_append, hc] at h
    dsimp only [Option.bind] at h
    rw [lookupFs] at h
    cases h

theorem chainFreeAll_of_inits {fs : FsNode} {d : List String}
    (h : d.inits.all
        (fun p =>
          match lookupFs fs p with
          | some (.file _) => false
          | _ => true) = true) :
    ∀ p, p <+: d → ∀ c, lookupFs fs p ≠ some (.file c) := by
  intro p hp c hc
  have hmem : p ∈ d.inits := (List.mem_inits _ _).2 hp
  have h2 := List.all_eq_true.1 h p hmem
  rw [hc] at h2
  simp at h2

/-- **C8.**  Copying a well-formed source tree to a fresh, disjoint
destination succeeds and produces at the destination exactly the source
subtree: every relative path resolves at the destination to what it
resolves to under the source, intermediate destination directories are
created, and nothing outside the destination changes.  Copying a single
file over an existing destination file overwrites it with the source
bytes. -/
theorem copyRecursiveSync_copies_tree :
    (∀ (fs : FsNode) (src dest : List String) (t : FsNode),
      lookupFs fs src = some t → WfTree t →
      pathDisjoint src dest →
      lookupFs fs dest = none →
      (∀ p, p <+: dest → ∀ c, lookupFs fs p ≠ some (.file c)) →
      (∀ c, t = FsNode.file c → ∃ chp, lookupFs fs dest.dropLast = some (.dir chp)) →
      copyRecursiveSync fs src dest = .ok (setPathFs fs dest t) ∧
      (∀ rel, lookupFs (setPathFs fs dest t) (dest ++ rel)
        = lookupFs fs (src ++ rel)) ∧
      (∀ q, pathDisjoint dest q →
        lookupFs (setPathFs fs dest t) q = lookupFs fs q)) ∧
    (∀ (fs : FsNode) (src dest : List String) (c c0 : String),
      dest ≠ [] →
      lookupFs fs src = some (.file c) →
      lookupFs fs dest = some (.file c0) →
      copyRecursiveSync fs src dest = .ok (setPathFs fs dest (.file c)) ∧
      lookupFs (setPathFs fs dest (.file c)) dest = some (.file c)) := by
  constructor
  · intro fs src dest t hsrc hwf hdisj hfresh hchain hparent
    have hspec := copyMany_spec (fsSize fs + 1) [((src, dest), t)] fs
      (by intro e he; rw [List.mem_singleton.1 he]; exact hsrc)
      (by intro e he; rw [List.mem_singleton.1 he]; exact hwf)
      (by
        have := lookupFs_fsSize_le src fs t hsrc
        simp only [List.map_cons, List.map_nil, List.sum_cons, List.sum_nil]
        omega)
      (by intro e he; rw [List.mem_singleton.1 he]; exact hfresh)
      (by intro e he; rw [List.mem_singleton.1 he]; exact hchain)
      (by intro e he; rw [List.mem_singleton.1 he]; exact hparent)
      (by
        intro e he e2 he2
        rw [List.mem_singleton.1 he, List.mem_singleton.1 he2]
        exact pathDisjoint_symm hdisj)
      (List.pairwise_singleton _ _)
    refine ⟨?_, ?_, ?_⟩
    · rw [copyRecursiveSync]
      exact hspec
    · intro rel
      have hself : lookupFs (setPathFs fs dest t) dest = some t :=
        lookupFs_setPathFs_self t dest fs (fun p hp hne c => hchain p hp c)
      rw [lookupFs_append, hself, lookupFs_append, hsrc]
    · intro q hq
      exact lookupFs_setPathFs_outside t dest q fs hq.1 hq.2
  · intro fs src dest c c0 hne hsrc hdest
    have hparent := lookupFs_some_parent_dir hne hdest
    have hw := writeFileAt_ok_eq c dest fs hne hparent
      (by
        intro ch0 hc
        rw [hdest] at hc
        cases hc)
    have hcf : ∀ p, p <+: dest → p ≠ dest → ∀ c2, lookupFs fs p ≠ some (.file c2) :=
      lookupFs_some_chainFree hdest
    constructor
    · rw [copyRecursiveSync, copyMany, hsrc]
      dsimp only
      rw [copyFile, hsrc]
      dsimp only
      rw [hw]
      rw [if_neg (by simp : ¬ (false = true))]
      dsimp only
      rw [copyMany_nil]
    · exact lookupFs_setPathFs_self (.file c) dest fs hcf

/-- Witness for C8: copying the directory `s` (a file and a nested
directory) to the fresh path `p/q` reproduces the tree there; copying file
`a` over existing file `b` overwrites it. -/
theorem copyRecursiveSync_copies_tree_witness :
    copyRecursiveSync
        (.dir [("s", .dir [("a", .file "x"), ("m", .dir [("b", .file "y")])]),
               ("p", .dir [("old", .file "z")])])
        ["s"] ["p", "q"]
      = .ok (.dir [("s", .dir [("a", .file "x"), ("m", .dir [("b", .file "y")])]),
                   ("p", .dir [("old", .file "z"),
                               ("q", .dir [("a", .file "x"),
                                           ("m", .dir [("b", .file "y")])])])]) ∧
    (∀ rel,
      lookupFs
        (setPathFs
          (.dir [("s", .dir [("a", .file "x"), ("m", .dir [("b", .file "y")])]),
                 ("p", .dir [("old", .file "z")])])
          ["p", "q"]
          (.dir [("a", .file "x"), ("m", .dir [("b", .file "y")])]))
        (["p", "q"] ++ rel)
      = lookupFs
          (.dir [("s", .dir [("a", .file "x"), ("m", .dir [("b", .file "y")])]),
                 ("p", .dir [("old", .file "z")])])
          (["s"] ++ rel)) ∧
    copyRecursiveSync (.dir [("a", .file "new"), ("b", .file "old")]) ["a"] ["b"]
      = .ok (.dir [("a", .file "new"), ("b", .file "new")]) := by
  have h1 := copyRecursiveSync_copies_tree.1
    (.dir [("s", .dir [("a", .file "x"), ("m", .dir [("b", .file "y")])]),
           ("p", .dir [("old", .file "z")])])
    ["s"] ["p", "q"]
    (.dir [("a", .file "x"), ("m", .dir [("b", .file "y")])])
    (by decide)
    (wfTree_of_aux 3 _ (by decide))
    (by
      constructor
      · decide
      · decide)
    (by decide)
    (chainFreeAll_of_inits (by decide))
    (fun c hc => nomatch hc)
  have h2 := copyRecursiveSync_copies_tree.2
    (.dir [("a", .file "new"), ("b", .file "old")]) ["a"] ["b"] "new" "old"
    (by decide) (by decide) (by decide)
  exact ⟨h1.1, h1.2.1, h2.1⟩

end Publishing
